import Mathlib

/-!
# Verification of the `ring` circular buffer (src/ring/ring.c)

Shallow embedding of the `RingBuffer_t` data type and its operations from
`src/ring/ring.c`.  The C structure stores a flat byte region of
`size * element_size` bytes; every `memcpy` the code performs is
element-aligned and moves a whole number of elements, so the storage is
modelled at element granularity as a list of elements (an element stands
for its `element_size` bytes; equality of elements is byte-for-byte
equality of their byte images).  `buffer == NULL` is modelled by
`Option`; the `mutex` handle only matters as null / non-null, so it is
`Option Unit`.  All counters are `uint32_t`; theorems are stated on
states whose counters satisfy the ring invariant (indices below `size`,
`count ≤ size`), where `Nat` arithmetic agrees with the machine
arithmetic because no expression the code evaluates can exceed
`2 * size ≤ 2^33` there and no subtraction the code performs underflows.
-/

universe u

/-- `RingBuffer_t` from `src/ring/ring.h`.  Fields in source order:
`buffer`, `mutex` (present because `USE_RTOS_MUTEX` is 1), `head`,
`tail`, `size`, `count`, `element_size`, `owns_buffer`. -/
structure RingBuffer (α : Type u) where
  buffer : Option (List α)
  mutex : Option Unit
  head : Nat
  tail : Nat
  size : Nat
  count : Nat
  element_size : Nat
  owns_buffer : Bool
deriving Repr, DecidableEq

namespace Ring

variable {α : Type u}

/-- `RingBuffer_Init`: attaches external storage, zeroes the cursors and
count, records `element_size`, clears ownership and the mutex handle. -/
def RingBuffer_Init (buffer : Option (List α)) (size : Nat)
    (element_size : Nat) : RingBuffer α :=
  { buffer := buffer
    mutex := none
    head := 0
    tail := 0
    size := size
    count := 0
    element_size := element_size
    owns_buffer := false }

/-- `RingBuffer_IsEmpty`: `rb->count == 0`. -/
def RingBuffer_IsEmpty (rb : RingBuffer α) : Bool :=
  rb.count == 0

/-- `RingBuffer_IsFull`: `rb->count == rb->size`. -/
def RingBuffer_IsFull (rb : RingBuffer α) : Bool :=
  rb.count == rb.size

/-- `RingBuffer_Available`: 0 on the defensive corruption check
`count > size`, otherwise `count` (the NULL check is outside the model:
states are values). -/
def RingBuffer_Available (rb : RingBuffer α) : Nat :=
  if rb.count > rb.size then 0 else rb.count

/-- `RingBuffer_Free`: 0 on the corruption check `count > size`,
otherwise `size - count`. -/
def RingBuffer_Free (rb : RingBuffer α) : Nat :=
  if rb.count > rb.size then 0 else rb.size - rb.count

/-- `RingBuffer_Write`: fail if full, else `memcpy` the element into
slot `head`, advance `head` modulo `size`, increment `count`.  Returns
the C `bool` and the post state. -/
def RingBuffer_Write (rb : RingBuffer α) (data : α) :
    Bool × RingBuffer α :=
  if RingBuffer_IsFull rb then (false, rb)
  else
    (true,
      { rb with
        buffer := rb.buffer.map (fun s => s.set rb.head data)
        head := (rb.head + 1) % rb.size
        count := rb.count + 1 })

/-- `RingBuffer_Read`: fail if empty, else `memcpy` slot `tail` out,
advance `tail` modulo `size`, decrement `count`.  The middle component
is the value copied into `*data` (`none` when the slot is outside the
modelled storage, i.e. unmodelled garbage). -/
def RingBuffer_Read (rb : RingBuffer α) :
    Bool × Option α × RingBuffer α :=
  if RingBuffer_IsEmpty rb then (false, none, rb)
  else
    (true, rb.buffer.bind (fun s => s.get? rb.tail),
      { rb with
        tail := (rb.tail + 1) % rb.size
        count := rb.count - 1 })

/-- `RingBuffer_PushFront`: never rejects (for a non-null ring); writes
into slot `head`, advances `head`; when the ring was full it advances
`tail` instead of growing `count`. -/
def RingBuffer_PushFront (rb : RingBuffer α) (data : α) :
    Bool × RingBuffer α :=
  let was_full := RingBuffer_IsFull rb
  let buf := rb.buffer.map (fun s => s.set rb.head data)
  if was_full then
    (true,
      { rb with
        buffer := buf
        head := (rb.head + 1) % rb.size
        tail := (rb.tail + 1) % rb.size })
  else
    (true,
      { rb with
        buffer := buf
        head := (rb.head + 1) % rb.size
        count := rb.count + 1 })

/-- `RingBuffer_Destroy` result: the cleared instance plus the two
externally observable effects the function can perform — whether
`free(rb->buffer)` was called, and whether the synchronization
provider was asked to destroy the lock handle (the source never does
the latter: it only nulls `rb->mutex`). -/
structure DestroyResult (α : Type u) where
  state : RingBuffer α
  freed_storage : Bool
  provider_destroy_called : Bool
deriving Repr, DecidableEq

/-- `RingBuffer_Destroy`: frees the backing storage iff
`owns_buffer && buffer != NULL`, then zeroes every field of the
instance (`buffer = NULL`, cursors/sizes 0, ownership cleared,
`mutex = NULL`).  No call into the mutex provider appears in the
source. -/
def RingBuffer_Destroy (rb : RingBuffer α) : DestroyResult α :=
  { state :=
      { buffer := none
        mutex := none
        head := 0
        tail := 0
        size := 0
        count := 0
        element_size := 0
        owns_buffer := false }
    freed_storage := rb.owns_buffer && rb.buffer.isSome
    provider_destroy_called := false }

/-- Element-granularity model of
`memcpy(dst + dstPos*esz, src + srcPos*esz, n*esz)`: copy `n` elements
of `src` starting at `srcPos` into `dst` starting at `dstPos`.  Reads
outside `src` (out-of-bounds garbage in C) copy `default`. -/
def listCopy [Inhabited α] (dst : List α) (dstPos : Nat) (src : List α)
    (srcPos : Nat) : Nat → List α
  | 0 => dst
  | n + 1 =>
    listCopy (dst.set dstPos (src.getD srcPos default)) (dstPos + 1)
      src (srcPos + 1) n

/-- `RingBuffer_WriteMultiple`: clamp to `RingBuffer_Free`, copy in at
most two contiguous chunks (up to the end of the backing array, then
wrapped to its start), advance `head` by the number written modulo
`size`, add it to `count`, return it.  `data` models а non-null input
array read at indices `0..count-1`. -/
def RingBuffer_WriteMultiple [Inhabited α] (rb : RingBuffer α)
    (data : List α) (count : Nat) : Nat × RingBuffer α :=
  if count = 0 then (0, rb)
  else
    let free_slots := RingBuffer_Free rb
    let elements_to_write := if count > free_slots then free_slots else count
    if elements_to_write = 0 then (0, rb)
    else
      let head := rb.head
      let first_chunk0 := rb.size - head
      let first_chunk :=
        if first_chunk0 > elements_to_write then elements_to_write
        else first_chunk0
      let second_chunk := elements_to_write - first_chunk
      let buf1 := rb.buffer.map (fun s => listCopy s head data 0 first_chunk)
      let buf2 :=
        if second_chunk > 0 then
          buf1.map (fun s => listCopy s 0 data first_chunk second_chunk)
        else buf1
      (elements_to_write,
        { rb with
          buffer := buf2
          head := (head + elements_to_write) % rb.size
          count := rb.count + elements_to_write })

/-- `RingBuffer_ReadMultiple`: clamp to `RingBuffer_Available`, copy
out in at most two contiguous chunks, advance `tail`, subtract from
`count`.  The middle component is the contents of the caller's output
array (`memcpy(data, buf+tail, fc)` then `memcpy(data+fc, buf, sc)`). -/
def RingBuffer_ReadMultiple (rb : RingBuffer α) (count : Nat) :
    Nat × List α × RingBuffer α :=
  if count = 0 then (0, [], rb)
  else
    let available := RingBuffer_Available rb
    let elements_to_read := if count > available then available else count
    if elements_to_read = 0 then (0, [], rb)
    else
      let tail := rb.tail
      let first_chunk0 := rb.size - tail
      let first_chunk :=
        if first_chunk0 > elements_to_read then elements_to_read
        else first_chunk0
      let second_chunk := elements_to_read - first_chunk
      let s := rb.buffer.getD []
      let out := (s.drop tail).take first_chunk ++ s.take second_chunk
      (elements_to_read, out,
        { rb with
          tail := (tail + elements_to_read) % rb.size
          count := rb.count - elements_to_read })

/-- Body of the `for` loop of `RingBuffer_PushBackOverwriteMultiple`
on the local copies `(storage, head, tail, current_count)`: write one
element at `head`, advance `head`; if the buffer was full advance
`tail`, else grow `current_count`. -/
def pushBackOverwriteStep (size : Nat)
    (st : List α × Nat × Nat × Nat) (a : α) : List α × Nat × Nat × Nat :=
  let s := st.1
  let head := st.2.1
  let tail := st.2.2.1
  let current_count := st.2.2.2
  let s' := s.set head a
  let head' := (head + 1) % size
  if current_count = size then
    (s', head', (tail + 1) % size, current_count)
  else
    (s', head', tail, current_count + 1)

/-- `RingBuffer_PushBackOverwriteMultiple`: iterates the overwrite
step over all `count` input elements on local copies of the cursors,
stores them back, and returns `elements_to_write`, which is always the
caller's `count` (never clamped).  `data` is the list of the `count`
elements the C code reads at `data[0..count-1]`. -/
def RingBuffer_PushBackOverwriteMultiple (rb : RingBuffer α)
    (data : List α) : Nat × RingBuffer α :=
  if data.length = 0 then (0, rb)
  else
    let init := (rb.buffer.getD [], rb.head, rb.tail, rb.count)
    let fin := data.foldl (pushBackOverwriteStep rb.size) init
    (data.length,
      { rb with
        buffer := rb.buffer.map (fun _ => fin.1)
        head := fin.2.1
        tail := fin.2.2.1
        count := fin.2.2.2 })

/-- The chunked copy loop of `RingBuffer_DumpToRing`: while elements
remain, copy `min(remaining, srcSize - srcTail, dstSize - dstHead)`
elements contiguously and advance both cursors modulo their sizes.
Recursion is driven by a `fuel` counter instantiated with the total
element count; every iteration of the terminating C loop copies at
least one element, so the fuel never runs out except in corrupted
states where the C loop itself never terminates (a zero chunk, which
also stops the recursion here).  Returns the destination storage, both
final cursors, and the number of elements copied. -/
def dumpLoop [Inhabited α] (srcS : List α) (srcSize dstSize : Nat) :
    Nat → List α → Nat → Nat → Nat → List α × Nat × Nat × Nat
  | 0, dstS, srcTail, dstHead, _ => (dstS, srcTail, dstHead, 0)
  | fuel + 1, dstS, srcTail, dstHead, remaining =>
    if remaining = 0 then (dstS, srcTail, dstHead, 0)
    else
      let src_chunk := srcSize - srcTail
      let dst_chunk := dstSize - dstHead
      let chunk_size0 := remaining
      let chunk_size1 :=
        if chunk_size0 > src_chunk then src_chunk else chunk_size0
      let chunk_size :=
        if chunk_size1 > dst_chunk then dst_chunk else chunk_size1
      if chunk_size = 0 then (dstS, srcTail, dstHead, 0)
      else
        let dstS' := listCopy dstS dstHead srcS srcTail chunk_size
        let rest :=
          dumpLoop srcS srcSize dstSize fuel dstS'
            ((srcTail + chunk_size) % srcSize)
            ((dstHead + chunk_size) % dstSize)
            (remaining - chunk_size)
        (rest.1, rest.2.1, rest.2.2.1, chunk_size + rest.2.2.2)

/-- `RingBuffer_DumpToRing`: rejects differing element sizes; copies
`min(RingBuffer_Available src, RingBuffer_Free dst)` elements directly
from `src`'s storage into `dst`'s storage in wrap-aware chunks; always
advances `dst.head` and adds to `dst.count` (clamped at `dst.size`);
consumes `src` (advancing `src.tail` and subtracting from `src.count`,
floored at 0) only when `preserve_source` is false.  Returns the
copied count and both post states. -/
def RingBuffer_DumpToRing [Inhabited α] (src_rb dst_rb : RingBuffer α)
    (preserve_source : Bool) : Nat × RingBuffer α × RingBuffer α :=
  if src_rb.element_size ≠ dst_rb.element_size then (0, src_rb, dst_rb)
  else
    let src_available := RingBuffer_Available src_rb
    let dst_free := RingBuffer_Free dst_rb
    if src_available = 0 then (0, src_rb, dst_rb)
    else
      let elements_to_copy :=
        if src_available < dst_free then src_available else dst_free
      if elements_to_copy = 0 then (0, src_rb, dst_rb)
      else
        let r := dumpLoop (src_rb.buffer.getD []) src_rb.size dst_rb.size
          elements_to_copy (dst_rb.buffer.getD [])
          src_rb.tail dst_rb.head elements_to_copy
        let src_tail := r.2.1
        let dst_head := r.2.2.1
        let copied_count := r.2.2.2
        let src' :=
          if preserve_source then src_rb
          else
            { src_rb with
              tail := src_tail
              count :=
                if src_rb.count ≥ copied_count then
                  src_rb.count - copied_count
                else 0 }
        let new_count := dst_rb.count + copied_count
        let dst' :=
          { dst_rb with
            buffer := dst_rb.buffer.map (fun _ => r.1)
            head := dst_head
            count := if new_count ≤ dst_rb.size then new_count else dst_rb.size }
        (copied_count, src', dst')

/-- One call of the non-overwriting single-element API. -/
inductive RWOp (α : Type u) where
  | write (a : α)
  | read

/-- Execute one `RingBuffer_Write` / `RingBuffer_Read` call, keeping the
post state. -/
def applyRW (rb : RingBuffer α) : RWOp α → RingBuffer α
  | .write a => (RingBuffer_Write rb a).2
  | .read => (RingBuffer_Read rb).2.2

/-- Execute a sequence of `write`/`read` calls. -/
def applyRWs (rb : RingBuffer α) (ops : List (RWOp α)) : RingBuffer α :=
  ops.foldl applyRW rb

/-- Call `RingBuffer_Write` once per element of `xs`, in order,
collecting the returned flags. -/
def writeList (rb : RingBuffer α) : List α → List Bool × RingBuffer α
  | [] => ([], rb)
  | a :: as =>
    let r := RingBuffer_Write rb a
    let rest := writeList r.2 as
    (r.1 :: rest.1, rest.2)

/-- Call `RingBuffer_Read` `n` times, collecting the values copied out
(`none` for a failed read). -/
def readList (rb : RingBuffer α) : Nat → List (Option α) × RingBuffer α
  | 0 => ([], rb)
  | n + 1 =>
    let r := RingBuffer_Read rb
    let rest := readList r.2.2 n
    (r.2.1 :: rest.1, rest.2)

/-- Call `RingBuffer_PushFront` once per element of `xs`, in order. -/
def pushList (rb : RingBuffer α) : List α → RingBuffer α
  | [] => rb
  | a :: as => pushList (RingBuffer_PushFront rb a).2 as

/-- The logical contents of the ring, oldest to newest: the `count`
stored elements starting at slot `tail`, wrapping modulo `size`. -/
def ringList [Inhabited α] (rb : RingBuffer α) : List α :=
  match rb.buffer with
  | none => []
  | some s =>
    (List.range rb.count).map
      (fun i => s.getD ((rb.tail + i) % rb.size) default)

/-- The ring invariant: cursors in range, `count` within capacity,
`head` derived from `tail` and `count`, storage attached and of the
declared capacity.  It holds after initialization with storage of the
right length and is preserved by every operation. -/
structure RingInv (rb : RingBuffer α) : Prop where
  size_pos : 0 < rb.size
  head_lt : rb.head < rb.size
  tail_lt : rb.tail < rb.size
  count_le : rb.count ≤ rb.size
  head_eq : rb.head = (rb.tail + rb.count) % rb.size
  storage : ∃ s, rb.buffer = some s ∧ s.length = rb.size

/-- Slots of a wrap-around window of length `< size` are pairwise
distinct: the map `i ↦ (t + i) % s` is injective below `s`. -/
theorem window_inj {t i j s : Nat} (hi : i < s) (hj : j < s)
    (h : (t + i) % s = (t + j) % s) : i = j := by
  have h2 : i ≡ j [MOD s] := Nat.ModEq.add_left_cancel' t h
  calc i = i % s := (Nat.mod_eq_of_lt hi).symm
    _ = j % s := h2
    _ = j := Nat.mod_eq_of_lt hj

/-- `take` as a window read through `getD`. -/
theorem take_eq_range_map [Inhabited α] {data : List α} {k : Nat}
    (hk : k ≤ data.length) :
    data.take k = (List.range k).map (fun i => data.getD i default) := by
  apply List.ext_getElem
  · simp [Nat.min_eq_left hk]
  · intro i h1 h2
    have hi : i < k := by simpa using h2
    have hid : i < data.length := lt_of_lt_of_le hi hk
    simp [List.getD, List.getElem?_eq_getElem hid]

/-- Growing the window: if `rb'` has the same tail, `k` more elements,
its storage agrees with `rb`'s on the old window and holds `g 0 … g
(k-1)` on the `k` new slots, then its contents are `rb`'s with those
values appended. -/
theorem ringList_grow [Inhabited α] {rb rb' : RingBuffer α}
    {s s' : List α} {k : Nat} {g : Nat → α}
    (hs : rb.buffer = some s) (hs' : rb'.buffer = some s')
    (hsize : rb'.size = rb.size) (htail : rb'.tail = rb.tail)
    (hcount : rb'.count = rb.count + k)
    (hkeep : ∀ j, j < rb.count →
      s'.getD ((rb.tail + j) % rb.size) default =
        s.getD ((rb.tail + j) % rb.size) default)
    (hnew : ∀ i, i < k →
      s'.getD ((rb.tail + (rb.count + i)) % rb.size) default = g i) :
    ringList rb' = ringList rb ++ (List.range k).map g := by
  simp only [ringList, hs, hs', hsize, htail, hcount]
  rw [List.range_add, List.map_append, List.map_map]
  congr 1
  · exact List.map_congr_left (fun j hj => hkeep j (List.mem_range.mp hj))
  · exact List.map_congr_left (fun i hi => hnew i (List.mem_range.mp hi))

/-- Dropping the first `k` values of a window read of length `k + m`
leaves the window read shifted by `k`. -/
theorem drop_range_map {β : Type u} (f : Nat → β) (k m : Nat) :
    (((List.range (k + m)).map f).drop k) =
      (List.range m).map (fun j => f (k + j)) := by
  apply List.ext_getElem
  · simp
  · intro i h1 h2
    simp

/-- Shrinking the window: if `rb'` has its tail advanced by `k`
(modulo `size`), `k` fewer elements, and its storage agrees with
`rb`'s on the surviving window, then its contents are `rb`'s without
the first `k` elements. -/
theorem ringList_shrink [Inhabited α] {rb rb' : RingBuffer α}
    {s s' : List α} {k : Nat}
    (hs : rb.buffer = some s) (hs' : rb'.buffer = some s')
    (hsize : rb'.size = rb.size)
    (htail : rb'.tail = (rb.tail + k) % rb.size)
    (hcount : rb'.count = rb.count - k) (hk : k ≤ rb.count)
    (hkeep : ∀ j, k ≤ j → j < rb.count →
      s'.getD ((rb.tail + j) % rb.size) default =
        s.getD ((rb.tail + j) % rb.size) default) :
    ringList rb' = (ringList rb).drop k := by
  simp only [ringList, hs, hs', hsize, htail, hcount]
  have hsplit : rb.count = k + (rb.count - k) := by omega
  conv_rhs => rw [hsplit]
  rw [drop_range_map]
  apply List.map_congr_left
  intro j hj
  have hj' : j < rb.count - k := List.mem_range.mp hj
  rw [Nat.mod_add_mod]
  have : rb.tail + k + j = rb.tail + (k + j) := by omega
  rw [this]
  exact hkeep (k + j) (by omega) (by omega)

theorem getD_set_self [Inhabited α] {l : List α} {i : Nat}
    (h : i < l.length) (a : α) : (l.set i a).getD i default = a := by
  simp [List.getD, List.getElem?_set_self, h]

theorem getD_set_ne [Inhabited α] {l : List α} {i j : Nat} (h : i ≠ j)
    (a : α) : (l.set i a).getD j default = l.getD j default := by
  simp [List.getD, List.getElem?_set_ne h]

theorem listCopy_length [Inhabited α] :
    ∀ (n : Nat) (dst src : List α) (p q : Nat),
      (listCopy dst p src q n).length = dst.length := by
  intro n
  induction n with
  | zero => intro dst src p q; rfl
  | succ m ih =>
    intro dst src p q
    rw [listCopy, ih]
    simp

theorem listCopy_getD_out [Inhabited α] :
    ∀ (n : Nat) (dst src : List α) (p q j : Nat),
      (j < p ∨ p + n ≤ j) →
      (listCopy dst p src q n).getD j default = dst.getD j default := by
  intro n
  induction n with
  | zero => intro dst src p q j _; rfl
  | succ m ih =>
    intro dst src p q j hj
    rw [listCopy, ih _ _ _ _ _ (by omega)]
    exact getD_set_ne (by omega) _

theorem listCopy_getD_in [Inhabited α] :
    ∀ (n : Nat) (dst src : List α) (p q i : Nat),
      i < n → p + n ≤ dst.length →
      (listCopy dst p src q n).getD (p + i) default =
        src.getD (q + i) default := by
  intro n
  induction n with
  | zero => intro dst src p q i hi; omega
  | succ m ih =>
    intro dst src p q i hi hlen
    rw [listCopy]
    rcases Nat.eq_zero_or_pos i with hz | hpos
    · subst hz
      rw [listCopy_getD_out _ _ _ _ _ _ (Or.inl (by omega))]
      simpa using getD_set_self (by omega) _
    · have : p + i = (p + 1) + (i - 1) := by omega
      rw [this, ih _ _ _ _ _ (by omega) (by simp; omega)]
      congr 1
      omega

/-! ## Single-element operation lemmas -/

theorem write_full {rb : RingBuffer α} (h : rb.count = rb.size) (a : α) :
    RingBuffer_Write rb a = (false, rb) := by
  simp [RingBuffer_Write, RingBuffer_IsFull, h]

theorem write_not_full {rb : RingBuffer α} (h : rb.count ≠ rb.size)
    (a : α) :
    RingBuffer_Write rb a =
      (true,
        { rb with
          buffer := rb.buffer.map (fun s => s.set rb.head a)
          head := (rb.head + 1) % rb.size
          count := rb.count + 1 }) := by
  simp [RingBuffer_Write, RingBuffer_IsFull, h]

theorem read_empty {rb : RingBuffer α} (h : rb.count = 0) :
    RingBuffer_Read rb = (false, none, rb) := by
  simp [RingBuffer_Read, RingBuffer_IsEmpty, h]

theorem read_not_empty {rb : RingBuffer α} (h : rb.count ≠ 0) :
    RingBuffer_Read rb =
      (true, rb.buffer.bind (fun s => s.get? rb.tail),
        { rb with
          tail := (rb.tail + 1) % rb.size
          count := rb.count - 1 }) := by
  simp [RingBuffer_Read, RingBuffer_IsEmpty, h]

theorem inv_write {rb : RingBuffer α} (hinv : RingInv rb) (a : α) :
    RingInv (RingBuffer_Write rb a).2 := by
  rcases eq_or_ne rb.count rb.size with h | h
  · rw [write_full h]; exact hinv
  · rw [write_not_full h]
    dsimp only
    obtain ⟨s, hs, hsl⟩ := hinv.storage
    refine ⟨hinv.size_pos, ?_, hinv.tail_lt, ?_, ?_, ?_⟩
    · exact Nat.mod_lt _ hinv.size_pos
    · show rb.count + 1 ≤ rb.size
      have := hinv.count_le
      omega
    · show (rb.head + 1) % rb.size = (rb.tail + (rb.count + 1)) % rb.size
      rw [hinv.head_eq, Nat.mod_add_mod]
      congr 1
    · exact ⟨s.set rb.head a, by rw [hs]; rfl, by simpa using hsl⟩

theorem inv_read {rb : RingBuffer α} (hinv : RingInv rb) :
    RingInv (RingBuffer_Read rb).2.2 := by
  rcases eq_or_ne rb.count 0 with h | h
  · rw [read_empty h]; exact hinv
  · rw [read_not_empty h]
    dsimp only
    refine ⟨hinv.size_pos, hinv.head_lt, ?_, ?_, ?_, hinv.storage⟩
    · exact Nat.mod_lt _ hinv.size_pos
    · show rb.count - 1 ≤ rb.size
      have := hinv.count_le
      omega
    · show rb.head = ((rb.tail + 1) % rb.size + (rb.count - 1)) % rb.size
      rw [Nat.mod_add_mod, hinv.head_eq]
      congr 1
      omega

theorem ringList_length [Inhabited α] {rb : RingBuffer α} {s : List α}
    (hs : rb.buffer = some s) : (ringList rb).length = rb.count := by
  simp [ringList, hs]

theorem ringList_write [Inhabited α] {rb : RingBuffer α}
    (hinv : RingInv rb) (h : rb.count < rb.size) (a : α) :
    ringList (RingBuffer_Write rb a).2 = ringList rb ++ [a] := by
  obtain ⟨s, hs, hsl⟩ := hinv.storage
  rw [write_not_full (by omega)]
  have hgrow := @ringList_grow α _ rb
    { rb with
      buffer := rb.buffer.map (fun t => t.set rb.head a)
      head := (rb.head + 1) % rb.size
      count := rb.count + 1 }
    s (s.set rb.head a) 1 (fun _ => a)
    hs (by rw [hs]; rfl) rfl rfl rfl ?_ ?_
  · simpa using hgrow
  · intro j hj
    apply getD_set_ne
    rw [hinv.head_eq]
    intro hcontra
    exact absurd (window_inj (Nat.lt_of_le_of_lt (Nat.le_of_lt hj) h)
      (Nat.lt_of_lt_of_le h (le_refl _)) hcontra.symm) (by omega)
  · intro i hi
    have hi0 : i = 0 := by omega
    subst hi0
    rw [show rb.tail + (rb.count + 0) = rb.tail + rb.count by omega,
      ← hinv.head_eq]
    exact getD_set_self (by rw [hsl]; exact hinv.head_lt) _

theorem read_value [Inhabited α] {rb : RingBuffer α} (hinv : RingInv rb)
    (h : 0 < rb.count) :
    (RingBuffer_Read rb).2.1 = (ringList rb).head? := by
  obtain ⟨s, hs, hsl⟩ := hinv.storage
  rw [read_not_empty (by omega)]
  have htail := hinv.tail_lt
  have hcount := rb.count
  simp only [ringList, hs]
  have : rb.count = (rb.count - 1) + 1 := by omega
  rw [this, List.range_succ_eq_map]
  simp [List.get?_eq_getElem?, List.getElem?_eq_getElem (by omega : rb.tail < s.length),
    List.getD, Nat.mod_eq_of_lt htail]

theorem ringList_read [Inhabited α] {rb : RingBuffer α}
    (hinv : RingInv rb) (h : 0 < rb.count) :
    ringList (RingBuffer_Read rb).2.2 = (ringList rb).drop 1 := by
  obtain ⟨s, hs, hsl⟩ := hinv.storage
  rw [read_not_empty (by omega)]
  exact ringList_shrink hs hs rfl rfl rfl (by omega) (fun j _ _ => rfl)

theorem pushFront_full {rb : RingBuffer α} (h : rb.count = rb.size)
    (a : α) :
    RingBuffer_PushFront rb a =
      (true,
        { rb with
          buffer := rb.buffer.map (fun s => s.set rb.head a)
          head := (rb.head + 1) % rb.size
          tail := (rb.tail + 1) % rb.size }) := by
  simp [RingBuffer_PushFront, RingBuffer_IsFull, h]

theorem pushFront_not_full {rb : RingBuffer α} (h : rb.count ≠ rb.size)
    (a : α) : RingBuffer_PushFront rb a = RingBuffer_Write rb a := by
  simp [RingBuffer_PushFront, RingBuffer_Write, RingBuffer_IsFull, h]

/-- On a full well-formed ring `head` coincides with `tail` (the slot
about to be overwritten is the oldest element). -/
theorem head_eq_tail_of_full {rb : RingBuffer α} (hinv : RingInv rb)
    (h : rb.count = rb.size) : rb.head = rb.tail := by
  rw [hinv.head_eq, h, Nat.add_mod_right]
  exact Nat.mod_eq_of_lt hinv.tail_lt

theorem inv_pushFront {rb : RingBuffer α} (hinv : RingInv rb) (a : α) :
    RingInv (RingBuffer_PushFront rb a).2 := by
  rcases eq_or_ne rb.count rb.size with h | h
  · rw [pushFront_full h]
    dsimp only
    obtain ⟨s, hs, hsl⟩ := hinv.storage
    refine ⟨hinv.size_pos, ?_, ?_, hinv.count_le, ?_, ?_⟩
    · exact Nat.mod_lt _ hinv.size_pos
    · exact Nat.mod_lt _ hinv.size_pos
    · show (rb.head + 1) % rb.size = ((rb.tail + 1) % rb.size + rb.count) % rb.size
      rw [Nat.mod_add_mod, head_eq_tail_of_full hinv h, h,
        show rb.tail + 1 + rb.size = rb.tail + 1 + rb.size from rfl,
        Nat.add_mod_right]
    · exact ⟨s.set rb.head a, by rw [hs]; rfl, by simpa using hsl⟩
  · rw [pushFront_not_full h]
    exact inv_write hinv a

theorem ringList_pushFront_full [Inhabited α] {rb : RingBuffer α}
    (hinv : RingInv rb) (h : rb.count = rb.size) (a : α) :
    ringList (RingBuffer_PushFront rb a).2 =
      (ringList rb).drop 1 ++ [a] := by
  obtain ⟨s, hs, hsl⟩ := hinv.storage
  have hpos : 0 < rb.count := h ▸ hinv.size_pos
  have hht := head_eq_tail_of_full hinv h
  rw [pushFront_full h]
  set rbMid : RingBuffer α :=
    { rb with
      buffer := some (s.set rb.head a)
      tail := (rb.tail + 1) % rb.size
      count := rb.count - 1 } with hmid
  have hshrink : ringList rbMid = (ringList rb).drop 1 := by
    apply @ringList_shrink α _ rb rbMid s (s.set rb.head a) 1
      hs rfl rfl rfl rfl hpos
    intro j hj1 hjc
    apply getD_set_ne
    rw [hht]
    intro hcontra
    have hc2 : (rb.tail + 0) % rb.size = (rb.tail + j) % rb.size := by
      rw [Nat.add_zero, Nat.mod_eq_of_lt hinv.tail_lt]
      exact hcontra
    have h0j := window_inj hinv.size_pos
      (lt_of_lt_of_le hjc (le_of_eq h)) hc2
    omega
  have hgrow := @ringList_grow α _ rbMid
    { rb with
      buffer := rb.buffer.map (fun t => t.set rb.head a)
      head := (rb.head + 1) % rb.size
      tail := (rb.tail + 1) % rb.size }
    (s.set rb.head a) (s.set rb.head a) 1 (fun _ => a)
    rfl (by rw [hs]; rfl) rfl rfl (by show rb.count = rb.count - 1 + 1; omega)
    (fun j _ => rfl) ?_
  · rw [hgrow, hshrink]
    rfl
  · intro i hi
    have hi0 : i = 0 := by omega
    subst hi0
    show (s.set rb.head a).getD
      (((rb.tail + 1) % rb.size + (rb.count - 1 + 0)) % rb.size) default = a
    rw [Nat.mod_add_mod,
      show rb.tail + 1 + (rb.count - 1 + 0) = rb.tail + rb.count by omega,
      ← hinv.head_eq]
    exact getD_set_self (by rw [hsl]; exact hinv.head_lt) _

/-! ## Sequences of operations -/

theorem ringList_empty [Inhabited α] {rb : RingBuffer α}
    (h : rb.count = 0) : ringList rb = [] := by
  cases hb : rb.buffer <;> simp [ringList, hb, h]

theorem inv_init {s0 : List α} {size : Nat} (esz : Nat)
    (hsize : 0 < size) (hs : s0.length = size) :
    RingInv (RingBuffer_Init (some s0) size esz) :=
  ⟨hsize, hsize, hsize, Nat.zero_le _, by show 0 = (0 + 0) % size; simp,
    ⟨s0, rfl, hs⟩⟩

theorem inv_applyRW {rb : RingBuffer α} (hinv : RingInv rb)
    (op : RWOp α) : RingInv (applyRW rb op) := by
  cases op with
  | write a => exact inv_write hinv a
  | read => exact inv_read hinv

theorem inv_applyRWs :
    ∀ (ops : List (RWOp α)) (rb : RingBuffer α), RingInv rb →
      RingInv (applyRWs rb ops)
  | [], _, hinv => hinv
  | op :: ops, rb, hinv =>
    inv_applyRWs ops (applyRW rb op) (inv_applyRW hinv op)

/-- The spec's quiescent-point identity, in the form it takes on
well-formed states: `(head + size - tail) % size` is the mathematical
`(head - tail) mod size` whenever `tail < size`. -/
theorem ident_of_inv {rb : RingBuffer α} (hinv : RingInv rb) :
    (rb.head + rb.size - rb.tail) % rb.size = rb.count % rb.size := by
  have ht := hinv.tail_lt
  have hc := hinv.count_le
  have hs := hinv.size_pos
  rw [hinv.head_eq]
  rcases Nat.lt_or_ge (rb.tail + rb.count) rb.size with hlt | hge
  · rw [Nat.mod_eq_of_lt hlt,
      show rb.tail + rb.count + rb.size - rb.tail = rb.count + rb.size by omega,
      Nat.add_mod_right]
  · have h1 : (rb.tail + rb.count) % rb.size =
        (rb.tail + rb.count - rb.size) % rb.size := Nat.mod_eq_sub_mod hge
    have h2 : rb.tail + rb.count - rb.size < rb.size := by omega
    rw [h1, Nat.mod_eq_of_lt h2,
      show rb.tail + rb.count - rb.size + rb.size - rb.tail = rb.count by omega]

theorem writeList_cons (rb : RingBuffer α) (a : α) (as : List α) :
    writeList rb (a :: as) =
      ((RingBuffer_Write rb a).1 ::
          (writeList (RingBuffer_Write rb a).2 as).1,
        (writeList (RingBuffer_Write rb a).2 as).2) := rfl

theorem readList_succ (rb : RingBuffer α) (n : Nat) :
    readList rb (n + 1) =
      ((RingBuffer_Read rb).2.1 ::
          (readList (RingBuffer_Read rb).2.2 n).1,
        (readList (RingBuffer_Read rb).2.2 n).2) := rfl

theorem pushList_cons (rb : RingBuffer α) (a : α) (as : List α) :
    pushList rb (a :: as) = pushList (RingBuffer_PushFront rb a).2 as := rfl

/-- Dropping one more element commutes with pre-dropping the head of
the left part of an append. -/
theorem drop_one_shift {β : Type u} (l v : List β) (h : 1 ≤ l.length)
    (n : Nat) : (l.drop 1 ++ v).drop n = (l ++ v).drop (n + 1) := by
  calc (l.drop 1 ++ v).drop n = ((l ++ v).drop 1).drop n := by
        rw [List.drop_append_of_le_length h]
    _ = (l ++ v).drop (n + 1) := by
        rw [List.drop_drop, Nat.add_comm 1 n]

theorem writeList_spec [Inhabited α] :
    ∀ (xs : List α) (rb : RingBuffer α), RingInv rb →
      rb.count + xs.length ≤ rb.size →
      (writeList rb xs).1 = xs.map (fun _ => true) ∧
      RingInv (writeList rb xs).2 ∧
      ringList (writeList rb xs).2 = ringList rb ++ xs ∧
      (writeList rb xs).2.size = rb.size ∧
      (writeList rb xs).2.count = rb.count + xs.length := by
  intro xs
  induction xs with
  | nil =>
    intro rb hinv _
    exact ⟨rfl, hinv, by simp [writeList], rfl, rfl⟩
  | cons a as ih =>
    intro rb hinv hlen
    simp only [List.length_cons] at hlen
    have hne : rb.count ≠ rb.size := by omega
    have hwrote := write_not_full hne a
    have hflag : (RingBuffer_Write rb a).1 = true := by rw [hwrote]
    have hcount1 : (RingBuffer_Write rb a).2.count = rb.count + 1 := by
      rw [hwrote]
    have hsize1 : (RingBuffer_Write rb a).2.size = rb.size := by
      rw [hwrote]
    have hinv1 := inv_write hinv a
    have hring1 := ringList_write hinv (by omega) a
    obtain ⟨ih1, ih2, ih3, ih4, ih5⟩ :=
      ih (RingBuffer_Write rb a).2 hinv1
        (by rw [hcount1, hsize1]; omega)
    rw [writeList_cons]
    refine ⟨?_, ih2, ?_, ?_, ?_⟩
    · rw [hflag, ih1]
      rfl
    · rw [ih3, hring1, List.append_assoc]
      rfl
    · rw [ih4, hsize1]
    · rw [ih5, hcount1]
      simp only [List.length_cons]
      omega

theorem readList_spec [Inhabited α] :
    ∀ (l : List α) (rb : RingBuffer α), RingInv rb → ringList rb = l →
      (readList rb l.length).1 = l.map some ∧
      RingInv (readList rb l.length).2 ∧
      ringList (readList rb l.length).2 = [] := by
  intro l
  induction l with
  | nil =>
    intro rb hinv hl
    exact ⟨rfl, hinv, hl⟩
  | cons a l' ih =>
    intro rb hinv hl
    obtain ⟨s, hs, hsl⟩ := hinv.storage
    have hcount : rb.count = l'.length + 1 := by
      have hlen := @ringList_length α _ rb s hs
      rw [hl] at hlen
      simpa using hlen.symm
    have hpos : 0 < rb.count := by omega
    have hval : (RingBuffer_Read rb).2.1 = some a := by
      rw [read_value hinv hpos, hl]
      rfl
    have hring1 : ringList (RingBuffer_Read rb).2.2 = l' := by
      rw [ringList_read hinv hpos, hl]
      rfl
    obtain ⟨ih1, ih2, ih3⟩ :=
      ih (RingBuffer_Read rb).2.2 (inv_read hinv) hring1
    rw [show (a :: l').length = l'.length + 1 from rfl, readList_succ]
    exact ⟨by rw [hval, ih1]; rfl, ih2, ih3⟩

theorem pushList_spec [Inhabited α] :
    ∀ (ds : List α) (rb : RingBuffer α), RingInv rb →
      RingInv (pushList rb ds) ∧
      (pushList rb ds).size = rb.size ∧
      (pushList rb ds).count = min (rb.count + ds.length) rb.size ∧
      ringList (pushList rb ds) =
        (ringList rb ++ ds).drop (rb.count + ds.length - rb.size) := by
  intro ds
  induction ds with
  | nil =>
    intro rb hinv
    have hc := hinv.count_le
    refine ⟨hinv, rfl, ?_, ?_⟩
    · show rb.count = min (rb.count + ([] : List α).length) rb.size
      simp only [List.length_nil]
      omega
    · show ringList rb = (ringList rb ++ ([] : List α)).drop
        (rb.count + ([] : List α).length - rb.size)
      simp only [List.length_nil, List.append_nil, Nat.add_zero]
      rw [show rb.count - rb.size = 0 by omega]
      rfl
  | cons a ds' ih =>
    intro rb hinv
    obtain ⟨s, hs, hsl⟩ := hinv.storage
    have hllen : (ringList rb).length = rb.count := ringList_length hs
    have hinv1 := inv_pushFront hinv a
    obtain ⟨ih1, ih2, ih3, ih4⟩ := ih (RingBuffer_PushFront rb a).2 hinv1
    rw [pushList_cons]
    rcases eq_or_ne rb.count rb.size with hfull | hnot
    · have hc1 : (RingBuffer_PushFront rb a).2.count = rb.count := by
        rw [pushFront_full hfull]
      have hs1 : (RingBuffer_PushFront rb a).2.size = rb.size := by
        rw [pushFront_full hfull]
      have hr1 := ringList_pushFront_full hinv hfull a
      have hlpos : 1 ≤ (ringList rb).length := by
        rw [hllen, hfull]
        exact hinv.size_pos
      refine ⟨ih1, by rw [ih2, hs1], ?_, ?_⟩
      · rw [ih3, hc1, hs1]
        simp only [List.length_cons]
        omega
      · rw [ih4, hr1, hc1, hs1, List.append_assoc, List.singleton_append,
          drop_one_shift _ _ hlpos]
        congr 1
        simp only [List.length_cons]
        omega
    · have hwr := pushFront_not_full hnot a
      have hclt : rb.count < rb.size := lt_of_le_of_ne hinv.count_le hnot
      have hc1 : (RingBuffer_PushFront rb a).2.count = rb.count + 1 := by
        rw [hwr, write_not_full hnot]
      have hs1 : (RingBuffer_PushFront rb a).2.size = rb.size := by
        rw [hwr, write_not_full hnot]
      have hr1 : ringList (RingBuffer_PushFront rb a).2 =
          ringList rb ++ [a] := by
        rw [hwr]
        exact ringList_write hinv hclt a
      refine ⟨ih1, by rw [ih2, hs1], ?_, ?_⟩
      · rw [ih3, hc1, hs1]
        simp only [List.length_cons]
        omega
      · rw [ih4, hr1, hc1, hs1, List.append_assoc, List.singleton_append]
        congr 1
        simp only [List.length_cons]
        omega

theorem size_applyRW (rb : RingBuffer α) (op : RWOp α) :
    (applyRW rb op).size = rb.size := by
  cases op with
  | write a =>
    show (RingBuffer_Write rb a).2.size = rb.size
    rcases eq_or_ne rb.count rb.size with h | h
    · rw [write_full h]
    · rw [write_not_full h]
  | read =>
    show (RingBuffer_Read rb).2.2.size = rb.size
    rcases eq_or_ne rb.count 0 with h | h
    · rw [read_empty h]
    · rw [read_not_empty h]

theorem size_applyRWs :
    ∀ (ops : List (RWOp α)) (rb : RingBuffer α),
      (applyRWs rb ops).size = rb.size
  | [], _ => rfl
  | op :: ops, rb => by
    show (applyRWs (applyRW rb op) ops).size = rb.size
    rw [size_applyRWs ops, size_applyRW]

/-! ## Batch operations -/

/-- The clamping pattern the C code uses
(`if (count > limit) count = limit`) is `min`. -/
theorem if_gt_min (a b : Nat) : (if a > b then b else a) = min a b := by
  split_ifs <;> omega

/-- Contents of the two-chunk wrap-aware copy of
`RingBuffer_WriteMultiple`: writing `k` elements starting at slot
`head` as a first chunk up to the end of the array and a wrapped
second chunk places element `i` in slot `(head + i) % size` and
touches nothing else. -/
theorem twoChunk_spec [Inhabited α] {s data s2 : List α}
    {head k fc sc : Nat} (hh : head < s.length) (hk : k ≤ s.length)
    (hfc : fc = min (s.length - head) k) (hsc : sc = k - fc)
    (hs2 : s2 = if sc > 0 then
        listCopy (listCopy s head data 0 fc) 0 data fc sc
      else listCopy s head data 0 fc) :
    s2.length = s.length ∧
    (∀ i, i < k →
      s2.getD ((head + i) % s.length) default = data.getD i default) ∧
    (∀ p, p < s.length → (∀ i, i < k → p ≠ (head + i) % s.length) →
      s2.getD p default = s.getD p default) := by
  have hfc1 : fc ≤ s.length - head := by omega
  have hfc2 : fc ≤ k := by omega
  have hsc1 : sc ≤ head := by omega
  have hlen1 : (listCopy s head data 0 fc).length = s.length :=
    listCopy_length fc s data head 0
  refine ⟨?_, ?_, ?_⟩
  · rw [hs2]
    split_ifs
    · rw [listCopy_length, hlen1]
    · exact hlen1
  · intro i hik
    rcases Nat.lt_or_ge i fc with hifc | hifc
    · have hpos : head + i < s.length := by omega
      rw [Nat.mod_eq_of_lt hpos, hs2]
      have hin : (listCopy s head data 0 fc).getD (head + i) default =
          data.getD (0 + i) default :=
        listCopy_getD_in fc s data head 0 i hifc (by omega)
      split_ifs
      · rw [listCopy_getD_out sc _ data 0 fc (head + i)
          (Or.inr (by omega)), hin, Nat.zero_add]
      · rw [hin, Nat.zero_add]
    · have hfceq : fc = s.length - head := by omega
      have hscpos : 0 < sc := by omega
      have hpos : head + i - s.length = i - fc := by omega
      have hmod : (head + i) % s.length = i - fc := by
        rw [Nat.mod_eq_sub_mod (by omega), hpos,
          Nat.mod_eq_of_lt (by omega)]
      rw [hmod, hs2, if_pos hscpos]
      have := listCopy_getD_in sc (listCopy s head data 0 fc) data 0 fc
        (i - fc) (by omega) (by omega)
      simpa [show fc + (i - fc) = i by omega] using this
  · intro p hp hout
    have hout1 : p < head ∨ head + fc ≤ p := by
      by_contra hcon
      push_neg at hcon
      exact hout (p - head) (by omega)
        (by rw [Nat.mod_eq_of_lt (by omega)]; omega)
    have hout2 : sc ≤ p := by
      by_contra hcon
      push_neg at hcon
      have hscpos : 0 < sc := by omega
      have hfceq : fc = s.length - head := by omega
      exact hout (fc + p) (by omega)
        (by rw [Nat.mod_eq_sub_mod (by omega),
          show head + (fc + p) - s.length = p by omega,
          Nat.mod_eq_of_lt hp])
    rw [hs2]
    have hbase : (listCopy s head data 0 fc).getD p default =
        s.getD p default :=
      listCopy_getD_out fc s data head 0 p hout1
    split_ifs
    · rw [listCopy_getD_out sc _ data 0 fc p (Or.inr (by omega)), hbase]
    · exact hbase

/-- Closed form of `RingBuffer_WriteMultiple` in its main branch
(`count != 0`, clamp nonzero), with the clamps written as `min`. -/
theorem writeMultiple_eq [Inhabited α] {rb : RingBuffer α} {s : List α}
    (hs : rb.buffer = some s) (data : List α) (n : Nat) (hn : n ≠ 0)
    (hkpos : min n (RingBuffer_Free rb) ≠ 0) :
    RingBuffer_WriteMultiple rb data n =
      (min n (RingBuffer_Free rb),
        { rb with
          buffer := some (
            if (min n (RingBuffer_Free rb)) -
                min (rb.size - rb.head) (min n (RingBuffer_Free rb)) > 0 then
              listCopy (listCopy s rb.head data 0
                  (min (rb.size - rb.head) (min n (RingBuffer_Free rb)))) 0
                data
                (min (rb.size - rb.head) (min n (RingBuffer_Free rb)))
                ((min n (RingBuffer_Free rb)) -
                  min (rb.size - rb.head) (min n (RingBuffer_Free rb)))
            else listCopy s rb.head data 0
              (min (rb.size - rb.head) (min n (RingBuffer_Free rb))))
          head := (rb.head + min n (RingBuffer_Free rb)) % rb.size
          count := rb.count + min n (RingBuffer_Free rb) }) := by
  simp only [RingBuffer_WriteMultiple, if_gt_min, hs, Option.map_some,
    if_neg hn, if_neg hkpos]
  split_ifs with hsc
  · rfl
  · rfl

/-- `RingBuffer_WriteMultiple` on a well-formed ring: returns
`min n free`, appends the first `min n free` input elements to the
logical contents, keeps `tail`, and adds the same amount to `count`. -/
theorem writeMultiple_spec [Inhabited α] {rb : RingBuffer α}
    (hinv : RingInv rb) (data : List α) (n : Nat)
    (hdn : n ≤ data.length) :
    (RingBuffer_WriteMultiple rb data n).1 =
      min n (rb.size - rb.count) ∧
    RingInv (RingBuffer_WriteMultiple rb data n).2 ∧
    ringList (RingBuffer_WriteMultiple rb data n).2 =
      ringList rb ++ data.take (min n (rb.size - rb.count)) ∧
    (RingBuffer_WriteMultiple rb data n).2.size = rb.size ∧
    (RingBuffer_WriteMultiple rb data n).2.tail = rb.tail ∧
    (RingBuffer_WriteMultiple rb data n).2.count =
      rb.count + min n (rb.size - rb.count) := by
  obtain ⟨s, hs, hsl⟩ := hinv.storage
  have hc := hinv.count_le
  have hh := hinv.head_lt
  have hfree : RingBuffer_Free rb = rb.size - rb.count := by
    unfold RingBuffer_Free
    rw [if_neg (by omega)]
  rcases eq_or_ne n 0 with hn | hn
  · subst hn
    have heq : RingBuffer_WriteMultiple rb data 0 = (0, rb) := rfl
    rw [heq]
    exact ⟨by simp, hinv, by simp, rfl, rfl, by simp⟩
  · rcases eq_or_ne (min n (rb.size - rb.count)) 0 with hk0 | hkne
    · have heq : RingBuffer_WriteMultiple rb data n = (0, rb) := by
        simp only [RingBuffer_WriteMultiple, if_gt_min, hfree,
          if_neg hn, hk0]
        rfl
      rw [heq, hk0]
      exact ⟨rfl, hinv, by simp, rfl, rfl, by simp⟩
    · have heq := writeMultiple_eq hs data n hn (by rw [hfree]; exact hkne)
      rw [hfree] at heq
      rw [heq]
      set k := min n (rb.size - rb.count) with hkdef
      have hkn : k ≤ n := Nat.min_le_left _ _
      have hkf : k ≤ rb.size - rb.count := Nat.min_le_right _ _
      have hks : k ≤ rb.size := by omega
      have hcl : rb.count < rb.size := by omega
      obtain ⟨htclen, htcin, htcout⟩ := @twoChunk_spec α _ s data _
        rb.head k (min (rb.size - rb.head) k)
        (k - min (rb.size - rb.head) k)
        (by omega : rb.head < s.length)
        (by omega : k ≤ s.length)
        (by rw [hsl])
        rfl rfl
      have hwin : ∀ i, i < k →
          (rb.tail + (rb.count + i)) % rb.size = (rb.head + i) % rb.size := by
        intro i _
        rw [hinv.head_eq, Nat.mod_add_mod,
          show rb.tail + rb.count + i = rb.tail + (rb.count + i) by omega]
      refine ⟨rfl, ?_, ?_, rfl, rfl, rfl⟩
      · refine ⟨hinv.size_pos, ?_, hinv.tail_lt, ?_, ?_, ?_⟩
        · exact Nat.mod_lt _ hinv.size_pos
        · show rb.count + k ≤ rb.size
          omega
        · show (rb.head + k) % rb.size = (rb.tail + (rb.count + k)) % rb.size
          rw [hinv.head_eq, Nat.mod_add_mod]
          congr 1
          omega
        · refine ⟨_, rfl, ?_⟩
          rw [htclen, hsl]
      · have hgrow := @ringList_grow α _ rb
          { rb with
            buffer := some (
              if k - min (rb.size - rb.head) k > 0 then
                listCopy (listCopy s rb.head data 0
                    (min (rb.size - rb.head) k)) 0 data
                  (min (rb.size - rb.head) k) (k - min (rb.size - rb.head) k)
              else listCopy s rb.head data 0 (min (rb.size - rb.head) k))
            head := (rb.head + k) % rb.size
            count := rb.count + k }
          s _ k (fun i => data.getD i default)
          hs rfl rfl rfl rfl ?_ ?_
        · rw [hgrow, take_eq_range_map (le_trans hkn hdn)]
        · intro j hj
          have hp : (rb.tail + j) % rb.size < s.length := by
            rw [hsl]
            exact Nat.mod_lt _ hinv.size_pos
          have hout : ∀ i, i < k →
              (rb.tail + j) % rb.size ≠ (rb.head + i) % s.length := by
            intro i hik hcontra
            rw [hsl, ← hwin i hik] at hcontra
            have hji := window_inj (by omega : j < rb.size)
              (by omega : rb.count + i < rb.size) hcontra
            omega
          exact htcout ((rb.tail + j) % rb.size) hp hout
        · intro i hik
          have hgot := htcin i hik
          rw [hsl] at hgot
          rw [hwin i hik]
          exact hgot
/-- `getD` at an in-bounds index is `getElem`. -/
theorem getD_eq_getElem [Inhabited α] {l : List α} {i : Nat}
    (h : i < l.length) : l.getD i default = l.get ⟨i, h⟩ := by
  simp [List.getD, List.getElem?_eq_getElem h]

/-- Indexing the logical contents reads the slot
`(tail + i) % size` of the storage. -/
theorem ringList_getElem [Inhabited α] {rb : RingBuffer α} {s : List α}
    (hs : rb.buffer = some s) (i : Nat) (hi : i < (ringList rb).length) :
    (ringList rb).get ⟨i, hi⟩ =
      s.getD ((rb.tail + i) % rb.size) default := by
  simp [ringList, hs]

/-- Closed form of `RingBuffer_ReadMultiple` in its main branch. -/
theorem readMultiple_eq {rb : RingBuffer α} {s : List α}
    (hs : rb.buffer = some s) (n : Nat) (hn : n ≠ 0)
    (hkpos : min n (RingBuffer_Available rb) ≠ 0) :
    RingBuffer_ReadMultiple rb n =
      (min n (RingBuffer_Available rb),
        (s.drop rb.tail).take
            (min (rb.size - rb.tail) (min n (RingBuffer_Available rb))) ++
          s.take (min n (RingBuffer_Available rb) -
            min (rb.size - rb.tail) (min n (RingBuffer_Available rb))),
        { rb with
          tail := (rb.tail + min n (RingBuffer_Available rb)) % rb.size
          count := rb.count - min n (RingBuffer_Available rb) }) := by
  simp only [RingBuffer_ReadMultiple, if_gt_min, hs, Option.getD_some,
    if_neg hn, if_neg hkpos]

/-- `RingBuffer_ReadMultiple` on a well-formed ring: returns
`min n count`, copies out the first `min n count` logical elements in
order, and drops them from the contents. -/
theorem readMultiple_spec [Inhabited α] {rb : RingBuffer α}
    (hinv : RingInv rb) (n : Nat) :
    (RingBuffer_ReadMultiple rb n).1 = min n rb.count ∧
    (RingBuffer_ReadMultiple rb n).2.1 =
      (ringList rb).take (min n rb.count) ∧
    RingInv (RingBuffer_ReadMultiple rb n).2.2 ∧
    ringList (RingBuffer_ReadMultiple rb n).2.2 =
      (ringList rb).drop (min n rb.count) ∧
    (RingBuffer_ReadMultiple rb n).2.2.size = rb.size := by
  obtain ⟨s, hs, hsl⟩ := hinv.storage
  have hc := hinv.count_le
  have ht := hinv.tail_lt
  have hllen : (ringList rb).length = rb.count := ringList_length hs
  have havail : RingBuffer_Available rb = rb.count := by
    unfold RingBuffer_Available
    rw [if_neg (by omega)]
  rcases eq_or_ne n 0 with hn | hn
  · subst hn
    have heq : RingBuffer_ReadMultiple rb 0 = (0, [], rb) := rfl
    rw [heq]
    exact ⟨by simp, by simp, hinv, by simp, rfl⟩
  · rcases eq_or_ne (min n rb.count) 0 with hk0 | hkne
    · have heq : RingBuffer_ReadMultiple rb n = (0, [], rb) := by
        simp only [RingBuffer_ReadMultiple, if_gt_min, havail,
          if_neg hn, hk0]
        rfl
      rw [heq, hk0]
      exact ⟨rfl, by simp, hinv, by simp, rfl⟩
    · have heq := readMultiple_eq hs n hn (by rw [havail]; exact hkne)
      rw [havail] at heq
      rw [heq]
      set k := min n rb.count with hkdef
      have hkn : k ≤ n := Nat.min_le_left _ _
      have hkc : k ≤ rb.count := Nat.min_le_right _ _
      set fc := min (rb.size - rb.tail) k with hfcdef
      have hfc1 : fc ≤ rb.size - rb.tail := Nat.min_le_left _ _
      have hfc2 : fc ≤ k := Nat.min_le_right _ _
      have hdlen : (s.drop rb.tail).length = rb.size - rb.tail := by
        rw [List.length_drop, hsl]
      refine ⟨rfl, ?_, ?_, ?_, rfl⟩
      · show (s.drop rb.tail).take fc ++ s.take (k - fc) =
          (ringList rb).take k
        have hA : (s.drop rb.tail).take fc =
            (List.range fc).map (fun i => s.getD (rb.tail + i) default) := by
          rw [take_eq_range_map (by rw [hdlen]; omega)]
          apply List.map_congr_left
          intro i _
          simp [List.getD, List.getElem?_drop]
        have hB : s.take (k - fc) =
            (List.range (k - fc)).map (fun i => s.getD i default) := by
          rw [take_eq_range_map (by rw [hsl]; omega)]
        have hC : (ringList rb).take k =
            (List.range k).map
              (fun i => s.getD ((rb.tail + i) % rb.size) default) := by
          rw [take_eq_range_map (by omega)]
          apply List.map_congr_left
          intro i hi
          have hik : i < k := List.mem_range.mp hi
          rw [getD_eq_getElem (by omega), ringList_getElem hs i (by omega)]
        rw [hA, hB, hC]
        conv_rhs => rw [show k = fc + (k - fc) by omega]
        rw [List.range_add, List.map_append, List.map_map]
        congr 1
        · apply List.map_congr_left
          intro i hi
          have hifc : i < fc := List.mem_range.mp hi
          rw [Nat.mod_eq_of_lt (by omega)]
        · apply List.map_congr_left
          intro j hj
          have hjsc : j < k - fc := List.mem_range.mp hj
          have hfceq : fc = rb.size - rb.tail := by omega
          show s.getD j default =
            s.getD ((rb.tail + (fc + j)) % rb.size) default
          rw [show rb.tail + (fc + j) = rb.size + j by omega,
            Nat.add_mod_left, Nat.mod_eq_of_lt (by omega)]
      · refine ⟨hinv.size_pos, hinv.head_lt, ?_, ?_, ?_, ⟨s, hs, hsl⟩⟩
        · exact Nat.mod_lt _ hinv.size_pos
        · show rb.count - k ≤ rb.size
          omega
        · show rb.head = ((rb.tail + k) % rb.size + (rb.count - k)) % rb.size
          rw [Nat.mod_add_mod, hinv.head_eq]
          congr 1
          omega
      · exact ringList_shrink hs hs rfl rfl rfl hkc (fun j _ _ => rfl)

/-- `ringList` only reads `buffer`, `tail`, `count` and `size`. -/
theorem ringList_congr [Inhabited α] {x y : RingBuffer α}
    (hb : x.buffer = y.buffer) (ht : x.tail = y.tail)
    (hc : x.count = y.count) (hsz : x.size = y.size) :
    ringList x = ringList y := by
  cases hby : y.buffer <;>
    simp [ringList, hb, hby, ht, hc, hsz]

/-- `RingBuffer_PushFront` does not change the capacity. -/
theorem size_pushFront (rb : RingBuffer α) (a : α) :
    (RingBuffer_PushFront rb a).2.size = rb.size := by
  rcases eq_or_ne rb.count rb.size with h | h
  · rw [pushFront_full h]
  · rw [pushFront_not_full h, write_not_full h]

/-- The local-cursor loop of `RingBuffer_PushBackOverwriteMultiple`
computes exactly the iterated `RingBuffer_PushFront` state. -/
theorem pboFold_eq_pushList :
    ∀ (ds : List α) (rb : RingBuffer α) (s : List α),
      rb.buffer = some s →
      ds.foldl (pushBackOverwriteStep rb.size)
          (s, rb.head, rb.tail, rb.count) =
        ((pushList rb ds).buffer.getD [], (pushList rb ds).head,
          (pushList rb ds).tail, (pushList rb ds).count) := by
  intro ds
  induction ds with
  | nil =>
    intro rb s hs
    simp [pushList, hs]
  | cons a as ih =>
    intro rb s hs
    have hstep : pushBackOverwriteStep rb.size
        (s, rb.head, rb.tail, rb.count) a =
        ((RingBuffer_PushFront rb a).2.buffer.getD [],
          (RingBuffer_PushFront rb a).2.head,
          (RingBuffer_PushFront rb a).2.tail,
          (RingBuffer_PushFront rb a).2.count) := by
      rcases eq_or_ne rb.count rb.size with h | h
      · rw [pushFront_full h]
        simp [pushBackOverwriteStep, hs, h]
      · rw [pushFront_not_full h, write_not_full h]
        simp [pushBackOverwriteStep, hs, h]
    show List.foldl (pushBackOverwriteStep rb.size)
        (pushBackOverwriteStep rb.size (s, rb.head, rb.tail, rb.count) a)
        as = _
    rw [hstep]
    have hb1 : (RingBuffer_PushFront rb a).2.buffer =
        some (s.set rb.head a) := by
      rcases eq_or_ne rb.count rb.size with h | h
      · rw [pushFront_full h]
        show rb.buffer.map _ = _
        rw [hs]
        rfl
      · rw [pushFront_not_full h, write_not_full h]
        show rb.buffer.map _ = _
        rw [hs]
        rfl
    have hsz : (RingBuffer_PushFront rb a).2.size = rb.size :=
      size_pushFront rb a
    rw [hb1]
    show List.foldl (pushBackOverwriteStep rb.size)
        (s.set rb.head a, (RingBuffer_PushFront rb a).2.head,
          (RingBuffer_PushFront rb a).2.tail,
          (RingBuffer_PushFront rb a).2.count) as = _
    rw [show rb.size = (RingBuffer_PushFront rb a).2.size from hsz.symm]
    rw [ih (RingBuffer_PushFront rb a).2 (s.set rb.head a) hb1]
    rfl

/-! ## Claim theorems -/

/-- C1: FIFO order — starting from an empty well-formed ring (one
never touched by `push_overwrite`), writing the elements of `xs`
(`xs.length ≤ capacity`) with `RingBuffer_Write` succeeds every time,
and reading `xs.length` elements back with `RingBuffer_Read` returns
exactly the written elements, in write order. -/
theorem C1_fifo_order [Inhabited α] (rb : RingBuffer α)
    (hinv : RingInv rb) (hempty : rb.count = 0) (xs : List α)
    (hlen : xs.length ≤ rb.size) :
    (writeList rb xs).1 = xs.map (fun _ => true) ∧
    (readList (writeList rb xs).2 xs.length).1 = xs.map some := by
  obtain ⟨h1, h2, h3, _, _⟩ :=
    writeList_spec xs rb hinv (by omega)
  have hring : ringList (writeList rb xs).2 = xs := by
    rw [h3, ringList_empty hempty]
    rfl
  obtain ⟨r1, _, _⟩ := readList_spec xs (writeList rb xs).2 h2 hring
  exact ⟨h1, r1⟩

/-- C1 witness: the spec's concrete scenario — capacity 4, elements
1,2,3,4 written and read back in order. -/
theorem C1_fifo_order_witness :
    (writeList (RingBuffer_Init (some [0, 0, 0, 0]) 4 4) [1, 2, 3, 4]).1 =
      [true, true, true, true] ∧
    (readList (writeList (RingBuffer_Init (some [0, 0, 0, 0]) 4 4)
        [1, 2, 3, 4]).2 4).1 =
      [some 1, some 2, some 3, some 4] := by
  simpa using C1_fifo_order (RingBuffer_Init (some [0, 0, 0, 0]) 4 4)
    (inv_init 4 (by decide) rfl) rfl [1, 2, 3, 4] (by decide)

/-- C2: full/empty boundary — `RingBuffer_Write` fails iff
`count = capacity` and then changes nothing; otherwise it stores into
slot `head`, advances `head` modulo capacity and increments `count`.
`RingBuffer_Read` fails iff `count = 0` and then changes nothing;
otherwise it copies slot `tail` out, advances `tail` modulo capacity
and decrements `count`. -/
theorem C2_full_empty_boundary (rb : RingBuffer α) (a : α)
    (s : List α) (hs : rb.buffer = some s) :
    ((RingBuffer_Write rb a).1 = false ↔ rb.count = rb.size) ∧
    (rb.count = rb.size → (RingBuffer_Write rb a).2 = rb) ∧
    (rb.count ≠ rb.size →
      (RingBuffer_Write rb a).2 =
        { rb with
          buffer := some (s.set rb.head a)
          head := (rb.head + 1) % rb.size
          count := rb.count + 1 }) ∧
    ((RingBuffer_Read rb).1 = false ↔ rb.count = 0) ∧
    (rb.count = 0 → (RingBuffer_Read rb).2.2 = rb) ∧
    (rb.count ≠ 0 →
      (RingBuffer_Read rb).2.1 = s.get? rb.tail ∧
      (RingBuffer_Read rb).2.2 =
        { rb with
          tail := (rb.tail + 1) % rb.size
          count := rb.count - 1 }) := by
  refine ⟨?_, ?_, ?_, ?_, ?_, ?_⟩
  · rcases eq_or_ne rb.count rb.size with h | h
    · rw [write_full h]
      simpa using h
    · rw [write_not_full h]
      simpa using h
  · intro h
    rw [write_full h]
  · intro h
    rw [write_not_full h, hs]
    rfl
  · rcases eq_or_ne rb.count 0 with h | h
    · rw [read_empty h]
      simpa using h
    · rw [read_not_empty h]
      simpa using h
  · intro h
    rw [read_empty h]
  · intro h
    rw [read_not_empty h, hs]
    exact ⟨rfl, rfl⟩

/-- C2 witness: a half-full two-slot ring exercising both mutation
branches. -/
theorem C2_full_empty_boundary_witness :
    ((RingBuffer_Write (⟨some [7, 0], none, 1, 0, 2, 1, 1, false⟩ :
        RingBuffer Nat) 9).1 = false ↔ (1 : Nat) = 2) ∧
    ((1 : Nat) = 2 →
      (RingBuffer_Write (⟨some [7, 0], none, 1, 0, 2, 1, 1, false⟩ :
        RingBuffer Nat) 9).2 =
        ⟨some [7, 0], none, 1, 0, 2, 1, 1, false⟩) ∧
    ((1 : Nat) ≠ 2 →
      (RingBuffer_Write (⟨some [7, 0], none, 1, 0, 2, 1, 1, false⟩ :
        RingBuffer Nat) 9).2 =
        ⟨some ([7, 0].set 1 9), none, (1 + 1) % 2, 0, 2, 1 + 1, 1, false⟩) ∧
    ((RingBuffer_Read (⟨some [7, 0], none, 1, 0, 2, 1, 1, false⟩ :
        RingBuffer Nat)).1 = false ↔ (1 : Nat) = 0) ∧
    ((1 : Nat) = 0 →
      (RingBuffer_Read (⟨some [7, 0], none, 1, 0, 2, 1, 1, false⟩ :
        RingBuffer Nat)).2.2 =
        ⟨some [7, 0], none, 1, 0, 2, 1, 1, false⟩) ∧
    ((1 : Nat) ≠ 0 →
      (RingBuffer_Read (⟨some [7, 0], none, 1, 0, 2, 1, 1, false⟩ :
        RingBuffer Nat)).2.1 = [7, 0].get? 0 ∧
      (RingBuffer_Read (⟨some [7, 0], none, 1, 0, 2, 1, 1, false⟩ :
        RingBuffer Nat)).2.2 =
        ⟨some [7, 0], none, 1, (0 + 1) % 2, 2, 1 - 1, 1, false⟩) :=
  C2_full_empty_boundary
    (⟨some [7, 0], none, 1, 0, 2, 1, 1, false⟩ : RingBuffer Nat) 9
    [7, 0] rfl

/-- C3: capacity invariant — from a freshly initialized ring, after
any sequence of `RingBuffer_Write`/`RingBuffer_Read` calls,
`count ≤ capacity` and `head`, `tail` lie in `[0, capacity)`, the
capacity being unchanged. -/
theorem C3_capacity_invariant (s0 : List α) (size esz : Nat)
    (hsize : 0 < size) (hs : s0.length = size) (ops : List (RWOp α)) :
    (applyRWs (RingBuffer_Init (some s0) size esz) ops).size = size ∧
    (applyRWs (RingBuffer_Init (some s0) size esz) ops).count ≤ size ∧
    (applyRWs (RingBuffer_Init (some s0) size esz) ops).head < size ∧
    (applyRWs (RingBuffer_Init (some s0) size esz) ops).tail < size := by
  have hsz : (applyRWs (RingBuffer_Init (some s0) size esz) ops).size =
      size := size_applyRWs ops _
  have h := inv_applyRWs ops (RingBuffer_Init (some s0) size esz)
    (inv_init esz hsize hs)
  have h1 := h.count_le
  have h2 := h.head_lt
  have h3 := h.tail_lt
  rw [hsz] at h1 h2 h3
  exact ⟨hsz, h1, h2, h3⟩

/-- C3 witness: a mixed write/read sequence on a two-slot ring. -/
theorem C3_capacity_invariant_witness :
    (applyRWs (RingBuffer_Init (some [0, 0]) 2 4)
      [RWOp.write 1, RWOp.write 2, RWOp.read, RWOp.write 3,
        RWOp.write 4]).size = 2 ∧
    (applyRWs (RingBuffer_Init (some [0, 0]) 2 4)
      [RWOp.write 1, RWOp.write 2, RWOp.read, RWOp.write 3,
        RWOp.write 4]).count ≤ 2 ∧
    (applyRWs (RingBuffer_Init (some [0, 0]) 2 4)
      [RWOp.write 1, RWOp.write 2, RWOp.read, RWOp.write 3,
        RWOp.write 4]).head < 2 ∧
    (applyRWs (RingBuffer_Init (some [0, 0]) 2 4)
      [RWOp.write 1, RWOp.write 2, RWOp.read, RWOp.write 3,
        RWOp.write 4]).tail < 2 :=
  C3_capacity_invariant [0, 0] 2 4 (by decide) rfl
    [RWOp.write 1, RWOp.write 2, RWOp.read, RWOp.write 3, RWOp.write 4]

/-- C5: batch round-trip — `RingBuffer_WriteMultiple` writes and
returns `min n free`, `RingBuffer_ReadMultiple` reads and returns
`min n count`, and on an empty ring (at any cursor position, so the
copy may wrap) a `WriteMultiple` followed by a `ReadMultiple` of the
written elements reproduces the exact input sequence. -/
theorem C5_batch_roundtrip [Inhabited α] (rb : RingBuffer α)
    (hinv : RingInv rb) (data : List α) (n : Nat)
    (hdn : n ≤ data.length) :
    (RingBuffer_WriteMultiple rb data n).1 =
      min n (RingBuffer_Free rb) ∧
    (RingBuffer_ReadMultiple rb n).1 =
      min n (RingBuffer_Available rb) ∧
    (rb.count = 0 →
      (RingBuffer_ReadMultiple
        (RingBuffer_WriteMultiple rb data n).2 n).2.1 =
        data.take (min n rb.size)) := by
  have hc := hinv.count_le
  have hfree : RingBuffer_Free rb = rb.size - rb.count := by
    unfold RingBuffer_Free
    rw [if_neg (by omega)]
  have havail : RingBuffer_Available rb = rb.count := by
    unfold RingBuffer_Available
    rw [if_neg (by omega)]
  obtain ⟨w1, w2, w3, _, _, w6⟩ := writeMultiple_spec hinv data n hdn
  obtain ⟨r1, _, _, _, _⟩ := readMultiple_spec hinv n
  refine ⟨by rw [hfree]; exact w1, by rw [havail]; exact r1, ?_⟩
  intro hempty
  obtain ⟨_, rr2, _, _, _⟩ := readMultiple_spec w2 n
  rw [rr2, w6, w3, ringList_empty hempty, List.nil_append, hempty]
  rw [show rb.size - 0 = rb.size by omega,
    show min n (0 + min n rb.size) = min n rb.size by omega,
    List.take_take, Nat.min_self]

/-- C5 witness: capacity 10 with cursors at 7 — the 7-element batch
wraps around the end of the backing array and reads back intact. -/
theorem C5_batch_roundtrip_witness :
    (RingBuffer_WriteMultiple
      (⟨some (List.replicate 10 0), none, 7, 7, 10, 0, 1, false⟩ :
        RingBuffer Nat) [1, 2, 3, 4, 5, 6, 7] 7).1 = 7 ∧
    (RingBuffer_ReadMultiple
      (⟨some (List.replicate 10 0), none, 7, 7, 10, 0, 1, false⟩ :
        RingBuffer Nat) 7).1 = 0 ∧
    (RingBuffer_ReadMultiple
      (RingBuffer_WriteMultiple
        (⟨some (List.replicate 10 0), none, 7, 7, 10, 0, 1, false⟩ :
          RingBuffer Nat) [1, 2, 3, 4, 5, 6, 7] 7).2 7).2.1 =
      [1, 2, 3, 4, 5, 6, 7] := by
  have h := C5_batch_roundtrip
    (⟨some (List.replicate 10 0), none, 7, 7, 10, 0, 1, false⟩ :
      RingBuffer Nat)
    ⟨by decide, by decide, by decide, by decide, by decide,
      ⟨List.replicate 10 0, rfl, by decide⟩⟩
    [1, 2, 3, 4, 5, 6, 7] 7 (by decide)
  refine ⟨?_, ?_, ?_⟩
  · rw [h.1]
    decide
  · rw [h.2.1]
    decide
  · rw [h.2.2 rfl]
    decide

/-- C7 counterexample: the claimed identity
`(head - tail) mod capacity == count` fails on the code as soon as a
write/read sequence fills the ring: four writes into a capacity-4 ring
give `head = tail = 0`, so the left side is 0 while `count = 4`. -/
theorem C7_identity_counterexample :
    ¬ (((applyRWs (RingBuffer_Init (some [0, 0, 0, 0]) 4 4)
          [RWOp.write 1, RWOp.write 2, RWOp.write 3, RWOp.write 4]).head +
        (applyRWs (RingBuffer_Init (some [0, 0, 0, 0]) 4 4)
          [RWOp.write 1, RWOp.write 2, RWOp.write 3, RWOp.write 4]).size -
        (applyRWs (RingBuffer_Init (some [0, 0, 0, 0]) 4 4)
          [RWOp.write 1, RWOp.write 2, RWOp.write 3, RWOp.write 4]).tail) %
        (applyRWs (RingBuffer_Init (some [0, 0, 0, 0]) 4 4)
          [RWOp.write 1, RWOp.write 2, RWOp.write 3, RWOp.write 4]).size =
      (applyRWs (RingBuffer_Init (some [0, 0, 0, 0]) 4 4)
        [RWOp.write 1, RWOp.write 2, RWOp.write 3, RWOp.write 4]).count) := by
  decide

/-- C7 (amended): after any `write`/`read` sequence from a fresh ring
the identity holds with both sides reduced modulo the capacity —
equivalently, `(head - tail) mod capacity = count` whenever the ring
is not full, and `0` when it is. -/
theorem C7_identity_mod_capacity (s0 : List α) (size esz : Nat)
    (hsize : 0 < size) (hs : s0.length = size) (ops : List (RWOp α)) :
    ((applyRWs (RingBuffer_Init (some s0) size esz) ops).head +
      (applyRWs (RingBuffer_Init (some s0) size esz) ops).size -
      (applyRWs (RingBuffer_Init (some s0) size esz) ops).tail) %
      (applyRWs (RingBuffer_Init (some s0) size esz) ops).size =
    (applyRWs (RingBuffer_Init (some s0) size esz) ops).count %
      (applyRWs (RingBuffer_Init (some s0) size esz) ops).size :=
  ident_of_inv
    (inv_applyRWs ops (RingBuffer_Init (some s0) size esz)
      (inv_init esz hsize hs))

/-- C7 witness: the identity taken modulo capacity holds on the very
state that violates the un-reduced identity. -/
theorem C7_identity_mod_capacity_witness :
    ((applyRWs (RingBuffer_Init (some [0, 0, 0, 0]) 4 4)
        [RWOp.write 1, RWOp.write 2, RWOp.write 3, RWOp.write 4]).head +
      (applyRWs (RingBuffer_Init (some [0, 0, 0, 0]) 4 4)
        [RWOp.write 1, RWOp.write 2, RWOp.write 3, RWOp.write 4]).size -
      (applyRWs (RingBuffer_Init (some [0, 0, 0, 0]) 4 4)
        [RWOp.write 1, RWOp.write 2, RWOp.write 3, RWOp.write 4]).tail) %
      (applyRWs (RingBuffer_Init (some [0, 0, 0, 0]) 4 4)
        [RWOp.write 1, RWOp.write 2, RWOp.write 3, RWOp.write 4]).size =
    (applyRWs (RingBuffer_Init (some [0, 0, 0, 0]) 4 4)
      [RWOp.write 1, RWOp.write 2, RWOp.write 3, RWOp.write 4]).count %
      (applyRWs (RingBuffer_Init (some [0, 0, 0, 0]) 4 4)
        [RWOp.write 1, RWOp.write 2, RWOp.write 3, RWOp.write 4]).size :=
  C7_identity_mod_capacity [0, 0, 0, 0] 4 4 (by decide) rfl
    [RWOp.write 1, RWOp.write 2, RWOp.write 3, RWOp.write 4]

/-- C8 counterexample: a ring with an attached lock handle for which
`RingBuffer_Destroy` performs no provider-destroy call, contrary to the
claim that the provider is asked to destroy an existing handle. -/
theorem C8_destroy_counterexample :
    (⟨some [0, 0], some (), 0, 0, 2, 0, 4, false⟩ :
        RingBuffer Nat).mutex.isSome = true ∧
    ¬ ((RingBuffer_Destroy (⟨some [0, 0], some (), 0, 0, 2, 0, 4, false⟩ :
        RingBuffer Nat)).provider_destroy_called = true) := by
  decide

/-- C8 (amended): `RingBuffer_Destroy` frees the backing storage iff
the ring owns it and the buffer is non-null, never asks the provider
to destroy the lock handle (it only nulls the stored pointer; the
caller owns the mutex), and leaves the instance zeroed. -/
theorem C8_destroy_postcondition (rb : RingBuffer α) :
    ((RingBuffer_Destroy rb).freed_storage = true ↔
      rb.owns_buffer = true ∧ rb.buffer.isSome = true) ∧
    (RingBuffer_Destroy rb).provider_destroy_called = false ∧
    (RingBuffer_Destroy rb).state.buffer = none ∧
    (RingBuffer_Destroy rb).state.mutex = none ∧
    (RingBuffer_Destroy rb).state.head = 0 ∧
    (RingBuffer_Destroy rb).state.tail = 0 ∧
    (RingBuffer_Destroy rb).state.size = 0 ∧
    (RingBuffer_Destroy rb).state.count = 0 ∧
    (RingBuffer_Destroy rb).state.element_size = 0 ∧
    (RingBuffer_Destroy rb).state.owns_buffer = false := by
  refine ⟨?_, rfl, rfl, rfl, rfl, rfl, rfl, rfl, rfl, rfl⟩
  show (rb.owns_buffer && rb.buffer.isSome) = true ↔ _
  rw [Bool.and_eq_true]

/-- C9: corruption defense — on any state with `count > capacity`,
both size queries refuse to trust the state and return 0. -/
theorem C9_corruption_defense (rb : RingBuffer α)
    (h : rb.count > rb.size) :
    RingBuffer_Available rb = 0 ∧ RingBuffer_Free rb = 0 := by
  simp [RingBuffer_Available, RingBuffer_Free, h]

/-- C9 witness: a corrupted state with `count = 5 > capacity = 1`. -/
theorem C9_corruption_defense_witness :
    (5 : Nat) > 1 ∧
    RingBuffer_Available (⟨some [0], none, 0, 0, 1, 5, 4, false⟩ :
      RingBuffer Nat) = 0 ∧
    RingBuffer_Free (⟨some [0], none, 0, 0, 1, 5, 4, false⟩ :
      RingBuffer Nat) = 0 :=
  ⟨by decide,
    C9_corruption_defense
      (⟨some [0], none, 0, 0, 1, 5, 4, false⟩ : RingBuffer Nat)
      (by decide)⟩

/-- C4: overwrite semantics — `RingBuffer_PushFront` never rejects;
on a full ring it keeps `count = capacity` and advances `tail`
(discarding the oldest element); on a non-full ring it is exactly
`RingBuffer_Write`; and after pushing `ys` onto a full ring the
contents are the old contents without their first `ys.length` elements
followed by `ys`, so for `ys.length < capacity` the oldest survivor is
the `(ys.length+1)`-th originally written element. -/
theorem C4_overwrite_semantics [Inhabited α] (rb rbn : RingBuffer α)
    (a b : α) (hinv : RingInv rb) (hfull : rb.count = rb.size)
    (hnot : rbn.count ≠ rbn.size) (ys : List α)
    (hys : ys.length ≤ rb.size) :
    (RingBuffer_PushFront rb a).1 = true ∧
    (RingBuffer_PushFront rbn b).1 = true ∧
    (RingBuffer_PushFront rb a).2.count = rb.size ∧
    (RingBuffer_PushFront rb a).2.tail = (rb.tail + 1) % rb.size ∧
    RingBuffer_PushFront rbn b = RingBuffer_Write rbn b ∧
    ringList (pushList rb ys) = (ringList rb).drop ys.length ++ ys ∧
    (ys.length < rb.size →
      (ringList (pushList rb ys)).head? = (ringList rb).get? ys.length) := by
  obtain ⟨s, hs, hsl⟩ := hinv.storage
  have hllen : (ringList rb).length = rb.count := ringList_length hs
  obtain ⟨_, _, _, hcontents⟩ := pushList_spec ys rb hinv
  have hdrop : rb.count + ys.length - rb.size = ys.length := by omega
  have hring : ringList (pushList rb ys) =
      (ringList rb).drop ys.length ++ ys := by
    rw [hcontents, hdrop,
      List.drop_append_of_le_length (by omega : ys.length ≤ (ringList rb).length)]
  refine ⟨by rw [pushFront_full hfull], ?_, ?_, ?_, pushFront_not_full hnot b,
    hring, ?_⟩
  · rw [pushFront_not_full hnot b, write_not_full hnot]
  · rw [pushFront_full hfull]
    exact hfull
  · rw [pushFront_full hfull]
  · intro hkc
    rw [hring]
    have hne : (ringList rb).drop ys.length ≠ [] := by
      intro hcontra
      have := congrArg List.length hcontra
      simp at this
      omega
    have h2 : ((ringList rb).drop ys.length).head? =
        (ringList rb).get? ys.length := by
      simp [List.head?_eq_getElem?, List.get?_eq_getElem?]
    cases hd : (ringList rb).drop ys.length with
    | nil => exact absurd hd hne
    | cons x xs =>
      rw [hd] at h2
      rw [List.cons_append, ← h2]
      rfl

/-- C4 witness: the spec's capacity-3 scenario — fill with 1,2,3, then
`push_overwrite` 4 and 5; the contents oldest-to-newest are 3,4,5 and
the oldest survivor is the third originally written element. -/
theorem C4_overwrite_semantics_witness :
    (RingBuffer_PushFront
      (writeList (RingBuffer_Init (some [0, 0, 0]) 3 4) [1, 2, 3]).2 9).1 =
        true ∧
    (RingBuffer_PushFront (RingBuffer_Init (some [0, 0]) 2 4) 9).1 = true ∧
    (RingBuffer_PushFront
      (writeList (RingBuffer_Init (some [0, 0, 0]) 3 4) [1, 2, 3]).2
        9).2.count =
      (writeList (RingBuffer_Init (some [0, 0, 0]) 3 4) [1, 2, 3]).2.size ∧
    (RingBuffer_PushFront
      (writeList (RingBuffer_Init (some [0, 0, 0]) 3 4) [1, 2, 3]).2
        9).2.tail =
      ((writeList (RingBuffer_Init (some [0, 0, 0]) 3 4) [1, 2, 3]).2.tail
        + 1) %
      (writeList (RingBuffer_Init (some [0, 0, 0]) 3 4) [1, 2, 3]).2.size ∧
    RingBuffer_PushFront (RingBuffer_Init (some [0, 0]) 2 4) 9 =
      RingBuffer_Write (RingBuffer_Init (some [0, 0]) 2 4) 9 ∧
    ringList (pushList
      (writeList (RingBuffer_Init (some [0, 0, 0]) 3 4) [1, 2, 3]).2
      [4, 5]) = [3, 4, 5] ∧
    (ringList (pushList
      (writeList (RingBuffer_Init (some [0, 0, 0]) 3 4) [1, 2, 3]).2
      [4, 5])).head? = some 3 := by
  have h := C4_overwrite_semantics
    (writeList (RingBuffer_Init (some [0, 0, 0]) 3 4) [1, 2, 3]).2
    (RingBuffer_Init (some [0, 0]) 2 4) 9 9
    ⟨by decide, by decide, by decide, by decide, by decide,
      ⟨[1, 2, 3], rfl, rfl⟩⟩
    (by decide) (by decide) [4, 5] (by decide)
  refine ⟨h.1, h.2.1, h.2.2.1, h.2.2.2.1, h.2.2.2.2.1, ?_, ?_⟩
  · rw [h.2.2.2.2.2.1]
    decide
  · rw [h.2.2.2.2.2.2 (by decide)]
    decide

/-- C10: `RingBuffer_PushBackOverwriteMultiple` always returns the
caller's `count` argument (it never clamps to capacity or free
space); afterwards `count = min (old count + n) capacity`; and when
`n ≥ capacity` the ring holds exactly the last `capacity` input
elements, oldest to newest. -/
theorem C10_pushback_overwrite_multiple [Inhabited α]
    (rb : RingBuffer α) (hinv : RingInv rb) (data : List α)
    (hpos : 0 < data.length) :
    (RingBuffer_PushBackOverwriteMultiple rb data).1 = data.length ∧
    (RingBuffer_PushBackOverwriteMultiple rb data).2.count =
      min (rb.count + data.length) rb.size ∧
    (rb.size ≤ data.length →
      ringList (RingBuffer_PushBackOverwriteMultiple rb data).2 =
        data.drop (data.length - rb.size)) := by
  obtain ⟨s, hs, hsl⟩ := hinv.storage
  obtain ⟨pinv, psz, pcount, pring⟩ := pushList_spec data rb hinv
  obtain ⟨sp, hsp, hspl⟩ := pinv.storage
  have hne : data.length ≠ 0 := by omega
  have heq : RingBuffer_PushBackOverwriteMultiple rb data =
      (data.length,
        { rb with
          buffer := some ((pushList rb data).buffer.getD [])
          head := (pushList rb data).head
          tail := (pushList rb data).tail
          count := (pushList rb data).count }) := by
    simp only [RingBuffer_PushBackOverwriteMultiple, if_neg hne, hs,
      Option.getD_some]
    rw [pboFold_eq_pushList data rb s hs]
    rfl
  rw [heq]
  refine ⟨rfl, ?_, ?_⟩
  · show (pushList rb data).count = _
    rw [pcount]
  · intro hds
    have hrc : ringList
        ({ rb with
          buffer := some ((pushList rb data).buffer.getD [])
          head := (pushList rb data).head
          tail := (pushList rb data).tail
          count := (pushList rb data).count } : RingBuffer α) =
        ringList (pushList rb data) :=
      ringList_congr (by rw [hsp]; rfl) rfl rfl psz.symm
    rw [hrc, pring]
    have hlen : (ringList rb).length = rb.count := ringList_length hs
    rw [show rb.count + data.length - rb.size =
      (ringList rb).length + (data.length - rb.size) by omega]
    exact List.drop_append _

/-- C10 witness: the spec's capacity-3 scenario — five pushes 1..5
return 5, leave the ring full, holding 3,4,5. -/
theorem C10_pushback_overwrite_multiple_witness :
    (RingBuffer_PushBackOverwriteMultiple
      (RingBuffer_Init (some [0, 0, 0]) 3 4) [1, 2, 3, 4, 5]).1 = 5 ∧
    (RingBuffer_PushBackOverwriteMultiple
      (RingBuffer_Init (some [0, 0, 0]) 3 4) [1, 2, 3, 4, 5]).2.count =
      3 ∧
    ringList (RingBuffer_PushBackOverwriteMultiple
      (RingBuffer_Init (some [0, 0, 0]) 3 4) [1, 2, 3, 4, 5]).2 =
      [3, 4, 5] := by
  have h := C10_pushback_overwrite_multiple
    (RingBuffer_Init (some [0, 0, 0]) 3 4)
    (inv_init 4 (by decide) rfl) [1, 2, 3, 4, 5] (by decide)
  refine ⟨h.1, ?_, ?_⟩
  · rw [h.2.1]
    decide
  · rw [h.2.2 (by decide)]
    decide

/-- Full characterization of the chunked copy loop of
`RingBuffer_DumpToRing`: with enough fuel, in-range cursors and a
window that fits the destination, it copies exactly `remaining`
elements, element `i` of the source window lands in destination slot
`(dstHead + i) % dstSize`, every other destination slot is untouched,
and both cursors advance by `remaining` modulo their sizes. -/
theorem dumpLoop_spec [Inhabited α] (srcS : List α)
    (srcSize dstSize : Nat) :
    ∀ (fuel : Nat) (dstS : List α) (srcTail dstHead remaining : Nat),
      remaining ≤ fuel →
      srcTail < srcSize → dstHead < dstSize →
      dstS.length = dstSize → remaining ≤ dstSize →
      (dumpLoop srcS srcSize dstSize fuel dstS srcTail dstHead
          remaining).2.2.2 = remaining ∧
      (dumpLoop srcS srcSize dstSize fuel dstS srcTail dstHead
          remaining).2.1 = (srcTail + remaining) % srcSize ∧
      (dumpLoop srcS srcSize dstSize fuel dstS srcTail dstHead
          remaining).2.2.1 = (dstHead + remaining) % dstSize ∧
      (dumpLoop srcS srcSize dstSize fuel dstS srcTail dstHead
          remaining).1.length = dstSize ∧
      (∀ i, i < remaining →
        (dumpLoop srcS srcSize dstSize fuel dstS srcTail dstHead
            remaining).1.getD ((dstHead + i) % dstSize) default =
          srcS.getD ((srcTail + i) % srcSize) default) ∧
      (∀ p, p < dstSize →
        (∀ i, i < remaining → p ≠ (dstHead + i) % dstSize) →
        (dumpLoop srcS srcSize dstSize fuel dstS srcTail dstHead
            remaining).1.getD p default = dstS.getD p default) := by
  intro fuel
  induction fuel with
  | zero =>
    intro dstS srcTail dstHead remaining hfuel hst hdh hlen hrd
    have hr0 : remaining = 0 := by omega
    subst hr0
    refine ⟨rfl, ?_, ?_, hlen, fun i hi => absurd hi (Nat.not_lt_zero i),
      fun p _ _ => rfl⟩
    · show srcTail = (srcTail + 0) % srcSize
      rw [Nat.add_zero, Nat.mod_eq_of_lt hst]
    · show dstHead = (dstHead + 0) % dstSize
      rw [Nat.add_zero, Nat.mod_eq_of_lt hdh]
  | succ fuel ih =>
    intro dstS srcTail dstHead remaining hfuel hst hdh hlen hrd
    rcases eq_or_ne remaining 0 with hr0 | hrne
    · subst hr0
      have heq : dumpLoop srcS srcSize dstSize (fuel + 1) dstS srcTail
          dstHead 0 = (dstS, srcTail, dstHead, 0) := by
        rw [dumpLoop]
        rw [if_pos rfl]
      rw [heq]
      refine ⟨rfl, ?_, ?_, hlen, fun i hi => absurd hi (Nat.not_lt_zero i),
        fun p _ _ => rfl⟩
      · show srcTail = (srcTail + 0) % srcSize
        rw [Nat.add_zero, Nat.mod_eq_of_lt hst]
      · show dstHead = (dstHead + 0) % dstSize
        rw [Nat.add_zero, Nat.mod_eq_of_lt hdh]
    · set c := min (min remaining (srcSize - srcTail))
        (dstSize - dstHead) with hcdef
      have hcpos : 0 < c := by omega
      have hcr : c ≤ remaining := by omega
      have hcs : c ≤ srcSize - srcTail := by omega
      have hcd : c ≤ dstSize - dstHead := by omega
      have heq : dumpLoop srcS srcSize dstSize (fuel + 1) dstS srcTail
          dstHead remaining =
          (let r := dumpLoop srcS srcSize dstSize fuel
            (listCopy dstS dstHead srcS srcTail c)
            ((srcTail + c) % srcSize) ((dstHead + c) % dstSize)
            (remaining - c)
          (r.1, r.2.1, r.2.2.1, c + r.2.2.2)) := by
        rw [dumpLoop]
        rw [if_neg hrne]
        simp only [if_gt_min]
        rw [if_neg (by omega)]
      rw [heq]
      dsimp only
      obtain ⟨ih1, ih2, ih3, ih4, ih5, ih6⟩ := ih
        (listCopy dstS dstHead srcS srcTail c)
        ((srcTail + c) % srcSize) ((dstHead + c) % dstSize)
        (remaining - c)
        (by omega)
        (Nat.mod_lt _ (by omega))
        (Nat.mod_lt _ (by omega))
        (by rw [listCopy_length]; exact hlen)
        (by omega)
      have hsrcpos : ∀ j, ((srcTail + c) % srcSize + j) % srcSize =
          (srcTail + (c + j)) % srcSize := by
        intro j
        rw [Nat.mod_add_mod]
        congr 1
        omega
      have hdstpos : ∀ j, ((dstHead + c) % dstSize + j) % dstSize =
          (dstHead + (c + j)) % dstSize := by
        intro j
        rw [Nat.mod_add_mod]
        congr 1
        omega
      refine ⟨by rw [ih1]; omega, ?_, ?_, ih4, ?_, ?_⟩
      · rw [ih2, hsrcpos]
        congr 1
        omega
      · rw [ih3, hdstpos]
        congr 1
        omega
      · intro i hir
        rcases Nat.lt_or_ge i c with hic | hic
        · have hdpos : dstHead + i < dstSize := by omega
          have hspos : srcTail + i < srcSize := by omega
          rw [Nat.mod_eq_of_lt hdpos, Nat.mod_eq_of_lt hspos]
          have hout : ∀ j, j < remaining - c →
              dstHead + i ≠ ((dstHead + c) % dstSize + j) % dstSize := by
            intro j hj hcontra
            rw [hdstpos] at hcontra
            have hc2 : (dstHead + i) % dstSize =
                (dstHead + (c + j)) % dstSize := by
              rw [Nat.mod_eq_of_lt hdpos]
              exact hcontra
            have := window_inj (by omega : i < dstSize)
              (by omega : c + j < dstSize) hc2
            omega
          rw [ih6 (dstHead + i) hdpos hout]
          have := listCopy_getD_in c dstS srcS dstHead srcTail i hic
            (by omega)
          rw [this]
        · have hgot := ih5 (i - c) (by omega)
          rw [hsrcpos, hdstpos,
            show c + (i - c) = i by omega] at hgot
          exact hgot
      · intro p hp hout
        have hout1 : ∀ j, j < remaining - c →
            p ≠ ((dstHead + c) % dstSize + j) % dstSize := by
          intro j hj hcontra
          rw [hdstpos] at hcontra
          exact hout (c + j) (by omega) hcontra
        rw [ih6 p hp hout1]
        apply listCopy_getD_out
        by_contra hcon
        push_neg at hcon
        exact hout (p - dstHead) (by omega)
          (by rw [show dstHead + (p - dstHead) = p by omega,
            Nat.mod_eq_of_lt hp])

/-- The other clamping pattern (`x < y ? x : y`) is also `min`. -/
theorem if_lt_min (a b : Nat) : (if a < b then a else b) = min a b := by
  split_ifs <;> omega

/-- The first `k` logical elements as a window read of the storage. -/
theorem ringList_take_eq [Inhabited α] {rb : RingBuffer α} {s : List α}
    (hs : rb.buffer = some s) {k : Nat} (hk : k ≤ rb.count) :
    (ringList rb).take k =
      (List.range k).map
        (fun i => s.getD ((rb.tail + i) % rb.size) default) := by
  have hllen : (ringList rb).length = rb.count := ringList_length hs
  rw [take_eq_range_map (by omega)]
  apply List.map_congr_left
  intro i hi
  have hik : i < k := List.mem_range.mp hi
  rw [getD_eq_getElem (by omega), ringList_getElem hs i (by omega)]

/-- C6: transfer conservation — `RingBuffer_DumpToRing` between rings
of equal element size returns `min (available src) (free dst)`; with
`preserve_source = false` the source loses exactly the copied oldest
elements, with `preserve_source = true` the source is untouched; the
destination always gains exactly those elements, appended in order. -/
theorem C6_transfer_conservation [Inhabited α] (src dst : RingBuffer α)
    (hsrc : RingInv src) (hdst : RingInv dst)
    (hesz : src.element_size = dst.element_size) (preserve : Bool) :
    (RingBuffer_DumpToRing src dst preserve).1 =
      min (RingBuffer_Available src) (RingBuffer_Free dst) ∧
    (preserve = false →
      RingBuffer_Available (RingBuffer_DumpToRing src dst preserve).2.1 =
        RingBuffer_Available src -
          min (RingBuffer_Available src) (RingBuffer_Free dst) ∧
      ringList (RingBuffer_DumpToRing src dst preserve).2.1 =
        (ringList src).drop
          (min (RingBuffer_Available src) (RingBuffer_Free dst))) ∧
    (preserve = true →
      (RingBuffer_DumpToRing src dst preserve).2.1 = src) ∧
    RingBuffer_Available (RingBuffer_DumpToRing src dst preserve).2.2 =
      RingBuffer_Available dst +
        min (RingBuffer_Available src) (RingBuffer_Free dst) ∧
    ringList (RingBuffer_DumpToRing src dst preserve).2.2 =
      ringList dst ++
        (ringList src).take
          (min (RingBuffer_Available src) (RingBuffer_Free dst)) := by
  obtain ⟨ss, hss, hssl⟩ := hsrc.storage
  obtain ⟨ds, hds, hdsl⟩ := hdst.storage
  have hscle := hsrc.count_le
  have hdcle := hdst.count_le
  have havs : RingBuffer_Available src = src.count := by
    unfold RingBuffer_Available
    rw [if_neg (by omega)]
  have havd : RingBuffer_Available dst = dst.count := by
    unfold RingBuffer_Available
    rw [if_neg (by omega)]
  have hfd : RingBuffer_Free dst = dst.size - dst.count := by
    unfold RingBuffer_Free
    rw [if_neg (by omega)]
  have hne1 : ¬ (src.element_size ≠ dst.element_size) := fun h => h hesz
  rcases eq_or_ne src.count 0 with hsc0 | hsc0
  · have hk0 : min (RingBuffer_Available src) (RingBuffer_Free dst) = 0 := by
      rw [havs, hsc0]
      simp
    have heq0 : RingBuffer_DumpToRing src dst preserve = (0, src, dst) := by
      simp only [RingBuffer_DumpToRing, if_neg hne1]
      rw [if_pos (by rw [havs]; exact hsc0)]
    rw [heq0, hk0]
    refine ⟨rfl, fun _ => ⟨?_, ?_⟩, fun _ => rfl, ?_, ?_⟩
    · show RingBuffer_Available src = RingBuffer_Available src - 0
      omega
    · show ringList src = (ringList src).drop 0
      rfl
    · show RingBuffer_Available dst = RingBuffer_Available dst + 0
      omega
    · show ringList dst = ringList dst ++ (ringList src).take 0
      simp
  · rcases eq_or_ne (min (RingBuffer_Available src) (RingBuffer_Free dst)) 0
      with hk0 | hkne
    · have heq0 : RingBuffer_DumpToRing src dst preserve =
          (0, src, dst) := by
        simp only [RingBuffer_DumpToRing, if_neg hne1, if_lt_min]
        rw [if_neg (by rw [havs]; exact hsc0), if_pos hk0]
      rw [heq0, hk0]
      refine ⟨rfl, fun _ => ⟨?_, ?_⟩, fun _ => rfl, ?_, ?_⟩
      · show RingBuffer_Available src = RingBuffer_Available src - 0
        omega
      · show ringList src = (ringList src).drop 0
        rfl
      · show RingBuffer_Available dst = RingBuffer_Available dst + 0
        omega
      · show ringList dst = ringList dst ++ (ringList src).take 0
        simp
    · set k := min (RingBuffer_Available src) (RingBuffer_Free dst)
        with hkdef
      have hkc : k ≤ src.count := by
        rw [hkdef, havs]
        omega
      have hkf : k ≤ dst.size - dst.count := by
        rw [hkdef, hfd]
        omega
      obtain ⟨d1, d2, d3, d4, d5, d6⟩ := dumpLoop_spec ss src.size
        dst.size k ds src.tail dst.head k (le_refl k) hsrc.tail_lt
        hdst.head_lt hdsl (by omega)
      have hwin : ∀ i,
          (dst.tail + (dst.count + i)) % dst.size =
            (dst.head + i) % dst.size := by
        intro i
        rw [hdst.head_eq, Nat.mod_add_mod]
        congr 1
        omega
      have heqm : RingBuffer_DumpToRing src dst preserve =
          ((dumpLoop ss src.size dst.size k ds src.tail dst.head k).2.2.2,
            (if preserve then src
              else
                { src with
                  tail := (dumpLoop ss src.size dst.size k ds src.tail
                    dst.head k).2.1
                  count := if src.count ≥ (dumpLoop ss src.size dst.size k
                      ds src.tail dst.head k).2.2.2 then
                    src.count - (dumpLoop ss src.size dst.size k ds
                      src.tail dst.head k).2.2.2
                  else 0 }),
            { dst with
              buffer := some (dumpLoop ss src.size dst.size k ds src.tail
                dst.head k).1
              head := (dumpLoop ss src.size dst.size k ds src.tail
                dst.head k).2.2.1
              count := if dst.count + (dumpLoop ss src.size dst.size k ds
                  src.tail dst.head k).2.2.2 ≤ dst.size then
                dst.count + (dumpLoop ss src.size dst.size k ds src.tail
                  dst.head k).2.2.2
              else dst.size }) := by
        simp only [RingBuffer_DumpToRing, if_neg hne1, if_lt_min, hss, hds,
          Option.getD_some, Option.map_some]
        rw [if_neg (by rw [havs]; exact hsc0), ← hkdef, if_neg hkne]
        rfl
      rw [heqm, d1, d2, d3,
        if_pos (by omega : src.count ≥ k),
        if_pos (by omega : dst.count + k ≤ dst.size)]
      refine ⟨rfl, ?_, ?_, ?_, ?_⟩
      · intro hp
        rw [hp, if_neg Bool.false_ne_true]
        constructor
        · show (if src.count - k > src.size then 0 else src.count - k) =
            RingBuffer_Available src - k
          rw [if_neg (by omega), havs]
        · exact ringList_shrink hss hss rfl rfl rfl hkc
            (fun j _ _ => rfl)
      · intro hp
        rw [hp, if_pos rfl]
      · show (if dst.count + k > dst.size then 0 else dst.count + k) =
          RingBuffer_Available dst + k
        rw [if_neg (by omega), havd]
      · have hgrow := @ringList_grow α _ dst
          { dst with
            buffer := some (dumpLoop ss src.size dst.size k ds src.tail
              dst.head k).1
            head := (dst.head + k) % dst.size
            count := dst.count + k }
          ds (dumpLoop ss src.size dst.size k ds src.tail dst.head k).1 k
          (fun i => ss.getD ((src.tail + i) % src.size) default)
          hds rfl rfl rfl rfl ?_ ?_
        · rw [hgrow, ringList_take_eq hss hkc]
        · intro j hj
          have hp : (dst.tail + j) % dst.size < dst.size :=
            Nat.mod_lt _ hdst.size_pos
          apply d6 ((dst.tail + j) % dst.size) hp
          intro i hik hcontra
          rw [← hwin i] at hcontra
          have := window_inj (by omega : j < dst.size)
            (by omega : dst.count + i < dst.size) hcontra
          omega
        · intro i hik
          rw [hwin i]
          exact d5 i hik

/-- C6 witness: a full capacity-3 source (1,2,3) dumped into a
capacity-4 destination holding 9,8 — two elements move, the source
keeps 3, the destination becomes 9,8,1,2. -/
theorem C6_transfer_conservation_witness :
    (RingBuffer_DumpToRing (⟨some [1, 2, 3], none, 0, 0, 3, 3, 4, false⟩ : RingBuffer Nat)
      (⟨some [9, 8, 0, 0], none, 2, 0, 4, 2, 4, false⟩ : RingBuffer Nat) false).1 = 2 ∧
    RingBuffer_Available (RingBuffer_DumpToRing (⟨some [1, 2, 3], none, 0, 0, 3, 3, 4, false⟩ : RingBuffer Nat)
      (⟨some [9, 8, 0, 0], none, 2, 0, 4, 2, 4, false⟩ : RingBuffer Nat) false).2.1 = 1 ∧
    ringList (RingBuffer_DumpToRing (⟨some [1, 2, 3], none, 0, 0, 3, 3, 4, false⟩ : RingBuffer Nat)
      (⟨some [9, 8, 0, 0], none, 2, 0, 4, 2, 4, false⟩ : RingBuffer Nat) false).2.1 = [3] ∧
    RingBuffer_Available (RingBuffer_DumpToRing (⟨some [1, 2, 3], none, 0, 0, 3, 3, 4, false⟩ : RingBuffer Nat)
      (⟨some [9, 8, 0, 0], none, 2, 0, 4, 2, 4, false⟩ : RingBuffer Nat) false).2.2 = 4 ∧
    ringList (RingBuffer_DumpToRing (⟨some [1, 2, 3], none, 0, 0, 3, 3, 4, false⟩ : RingBuffer Nat)
      (⟨some [9, 8, 0, 0], none, 2, 0, 4, 2, 4, false⟩ : RingBuffer Nat) false).2.2 = [9, 8, 1, 2] := by
  obtain ⟨h1, h2, h3, h4, h5⟩ := C6_transfer_conservation
    (⟨some [1, 2, 3], none, 0, 0, 3, 3, 4, false⟩ : RingBuffer Nat)
    (⟨some [9, 8, 0, 0], none, 2, 0, 4, 2, 4, false⟩ : RingBuffer Nat)
    ⟨by decide, by decide, by decide, by decide, by decide,
      ⟨[1, 2, 3], rfl, rfl⟩⟩
    ⟨by decide, by decide, by decide, by decide, by decide,
      ⟨[9, 8, 0, 0], rfl, rfl⟩⟩
    rfl false
  obtain ⟨h2a, h2b⟩ := h2 rfl
  refine ⟨?_, ?_, ?_, ?_, ?_⟩
  · rw [h1]
    decide
  · rw [h2a]
    decide
  · rw [h2b]
    decide
  · rw [h4]
    decide
  · rw [h5]
    decide

end Ring
